import Mathlib

/-!
Verification of `latex-component-selector.py` (LatexParser /
CompilationThread). Text is modelled as `List Char`; the filesystem as an
existence predicate `List Char → Bool`; the regular expressions of the
source as explicit scanning functions with the exact semantics of the
patterns used (lazy groups, tempered bodies, backtracking over bracket
options, `.` not matching a newline unless `re.DOTALL` is given).
-/

namespace LatexSel

/-- Predicate for Python whitespace (`str.strip`, regex `\s`): space, tab,
newline, carriage return, vertical tab, form feed. -/
def isSpace (c : Char) : Bool :=
  c = ' ' || c = '\t' || c = '\n' || c = '\r' || c = '\x0b' || c = '\x0c'

/-- Model of Python `str.lstrip()`. -/
def lstrip (s : List Char) : List Char := s.dropWhile isSpace

/-- Model of Python `str.rstrip()`. -/
def rstrip (s : List Char) : List Char := (s.reverse.dropWhile isSpace).reverse

/-- Model of Python `str.strip()`. -/
def strip (s : List Char) : List Char := rstrip (lstrip s)

/-- Fuel-indexed helper for `collapseWs`; the fuel (always instantiated
with the length of the text, an upper bound on the number of steps) makes
the recursion structural. -/
def collapseWsF : Nat → List Char → List Char
  | 0, _ => []
  | _ + 1, [] => []
  | fuel + 1, c :: rest =>
    if isSpace c then ' ' :: collapseWsF fuel (rest.dropWhile isSpace)
    else c :: collapseWsF fuel rest

/-- Model of `re.sub(r'\s+', ' ', s)`: every maximal whitespace run becomes
one space. -/
def collapseWs (s : List Char) : List Char := collapseWsF s.length s

/-- Model of Python `str.find(needle)`: index of the first occurrence,
`none` when absent (the source maps this to `-1`). -/
def findSub (needle : List Char) : List Char → Option Nat
  | [] => if needle.isEmpty then some 0 else none
  | c :: rest =>
    if needle.isPrefixOf (c :: rest) then some 0
    else (findSub needle rest).map (· + 1)

/-- Model of Python `needle in hay`. -/
def containsSub (needle hay : List Char) : Bool := (findSub needle hay).isSome

/-- Fuel-indexed helper for `replaceAll`; the fuel (instantiated with the
length of the text) makes the recursion structural. -/
def replaceAllF (old new : List Char) : Nat → List Char → List Char
  | 0, _ => []
  | _ + 1, [] => []
  | fuel + 1, c :: rest =>
    if !old.isEmpty && old.isPrefixOf (c :: rest) then
      new ++ replaceAllF old new fuel (rest.drop (old.length - 1))
    else c :: replaceAllF old new fuel rest

/-- Model of Python `str.replace(old, new)`: every non-overlapping
occurrence, left to right. The empty-old case cannot arise at the call
sites (they are guarded by `if img_path:`), so it is mapped to the
identity. -/
def replaceAll (old new s : List Char) : List Char :=
  replaceAllF old new s.length s

/-- Shape of a regex matcher at a fixed position: the first capture group
and the total matched length, or `none`. -/
abbrev Matcher := List Char → Option (List Char × Nat)

/-- Fuel-indexed helper for `scanM`; the fuel (instantiated with the
length of the text) makes the recursion structural. -/
def scanMF (m : Matcher) : Nat → List Char → Nat → List (Nat × List Char × Nat)
  | 0, _, _ => []
  | _ + 1, [], _ => []
  | fuel + 1, c :: rest, pos =>
    match m (c :: rest) with
    | some (g, len) =>
      (pos, g, len) :: scanMF m fuel (rest.drop (len - 1)) (pos + len)
    | none => scanMF m fuel rest (pos + 1)

/-- Model of `re.finditer`: try the matcher at every position, left to
right, skipping over each match. Produces (position, group, length)
triples. None of the matchers below produces a zero-width match. -/
def scanM (m : Matcher) (s : List Char) (pos : Nat) :
    List (Nat × List Char × Nat) :=
  scanMF m s.length s pos

def closeBrace : Char := '\x7d'

/-- Body part of a tempered sectioning pattern,
`((?:(?!stop₁\{|…)[\s\S])*)` under `re.DOTALL`: the longest prefix such
that no stop string begins at any position inside it. -/
def takeBody (stops : List (List Char)) : List Char → List Char
  | [] => []
  | c :: rest =>
    if stops.any (fun st => st.isPrefixOf (c :: rest)) then []
    else c :: takeBody stops rest

/-- Heading part of a component pattern, `head([^}]+)\}` where `head` ends
in an opening brace: the literal heading, a non-empty title without a
closing brace, and the closing brace. -/
def matchHead (head : List Char) (s : List Char) : Option (List Char × Nat) :=
  if head.isPrefixOf s then
    let after := s.drop head.length
    let title := after.takeWhile (fun c => c ≠ closeBrace)
    if title.isEmpty then none
    else if (after.dropWhile (fun c => c ≠ closeBrace)).isEmpty then none
    else some (title, head.length + title.length + 1)
  else none

/-- Matcher for one of the four component patterns of
`extract_components`: heading, title, then the tempered body. The
document-class pattern has no body group; it is obtained by passing
`[[]]` as the stop list, which makes `takeBody` empty at every
position. -/
def matchComp (head : List Char) (stops : List (List Char)) : Matcher := fun s =>
  match matchHead head s with
  | some (title, hlen) =>
      some (title, hlen + (takeBody stops (s.drop hlen)).length)
  | none => none

/-- Fuel-indexed helper for `natRepr`; the fuel (instantiated with the
successor of the number) makes the recursion structural. -/
def natReprF : Nat → Nat → List Char
  | 0, _ => []
  | fuel + 1, n =>
    if n < 10 then [Nat.digitChar n]
    else natReprF fuel (n / 10) ++ [Nat.digitChar (n % 10)]

/-- Decimal digit list of `n`, as produced by Python string formatting
(the interpolation of i+1 into the identifier f-string). -/
def natRepr (n : Nat) : List Char := natReprF (n + 1) n

/-- Model of the component dictionaries built by `extract_components`.
The source key `end` is a reserved word in Lean and is rendered `stop`. -/
structure Component where
  type : List Char
  name : List Char
  content : List Char
  start : Nat
  stop : Nat
  id : List Char
  is_preamble : Bool
deriving DecidableEq

def beginDocument : List Char := "\\begin\x7bdocument\x7d".data
def endDocument : List Char := "\\end\x7bdocument\x7d".data
def headDocumentclass : List Char := "\\documentclass\x7b".data
def headSection : List Char := "\\section\x7b".data
def headSubsection : List Char := "\\subsection\x7b".data
def headSubsubsection : List Char := "\\subsubsection\x7b".data
def typeDocumentClass : List Char := "Document Class".data
def typeSection : List Char := "Section".data
def typeSubsection : List Char := "Subsection".data
def typeSubsubsection : List Char := "Subsubsection".data

/-- Title post-processing of `extract_components`: `strip`, whitespace
collapse, `strip` again, then truncation to 47 characters plus an ellipsis
when longer than 50. -/
def processTitle (t : List Char) : List Char :=
  let t1 := strip (collapseWs (strip t))
  if 50 < t1.length then t1.take 47 ++ "...".data else t1

/-- Component dictionary built for the `i`-th (0-based) match of one
pattern: content is the full match text, offsets are shifted into the
original document, the identifier is kind and 1-based sequence number. -/
def mkComponent (ctype : List Char) (is_pre : Bool) (offset : Nat)
    (search : List Char) (i : Nat) (m : Nat × List Char × Nat) : Component :=
  { type := ctype
    name := processTitle m.2.1
    content := (search.drop m.1).take m.2.2
    start := m.1 + offset
    stop := m.1 + m.2.2 + offset
    id := ctype ++ '_' :: natRepr (i + 1)
    is_preamble := is_pre }

/-- Components contributed by one pattern family. -/
def componentsOf (ctype : List Char) (head : List Char)
    (stops : List (List Char)) (is_pre : Bool) (search : List Char)
    (offset : Nat) : List Component :=
  (scanM (matchComp head stops) search 0).enum.map
    (fun p => mkComponent ctype is_pre offset search p.1 p.2)

def insertByStart (c : Component) : List Component → List Component
  | [] => [c]
  | d :: l => if c.start ≤ d.start then c :: d :: l else d :: insertByStart c l

/-- Model of `self.components.sort(key=lambda x: x['start'])` (a stable
sort). -/
def sortByStart : List Component → List Component
  | [] => []
  | c :: l => insertByStart c (sortByStart l)

/-- Position of the begin-document marker, `0` when absent (the source
maps `find`'s `-1` to `0`). -/
def docBegin (full : List Char) : Nat := (findSub beginDocument full).getD 0

/-- Position of the end-document marker, the text length when absent. -/
def docEnd (full : List Char) : Nat :=
  (findSub endDocument full).getD full.length

/-- Slice `full_content[doc_begin:doc_end]` searched by the three
sectioning patterns. -/
def documentContent (full : List Char) : List Char :=
  (full.drop (docBegin full)).take (docEnd full - docBegin full)

/-- Model of `LatexParser.extract_components`: the document-class pattern
is matched against the text before the begin-document marker, the three
sectioning patterns against the document content; results are merged and
sorted by start offset. -/
def extract_components (full : List Char) : List Component :=
  let db := docBegin full
  let dcls := componentsOf typeDocumentClass headDocumentclass [[]] true
      (full.take db) 0
  let secs := componentsOf typeSection headSection
      [headSection] false (documentContent full) db
  let subs := componentsOf typeSubsection headSubsection
      [headSection, headSubsection] false (documentContent full) db
  let subsubs := componentsOf typeSubsubsection headSubsubsection
      [headSection, headSubsection, headSubsubsection] false
      (documentContent full) db
  sortByStart (dcls ++ secs ++ subs ++ subsubs)

def slash : Char := '/'

/-- Model of `os.path.isabs` (POSIX). -/
def isabs (p : List Char) : Bool :=
  match p with
  | c :: _ => c = slash
  | [] => false

/-- Model of `os.path.join(a, b)` (POSIX, two components). -/
def pjoin (a b : List Char) : List Char :=
  if isabs b then b
  else if a.isEmpty then b
  else if a.getLast? = some slash then a ++ b
  else a ++ slash :: b

/-- Model of `os.path.basename` (POSIX): the part after the last slash. -/
def basename (p : List Char) : List Char :=
  (p.reverse.takeWhile (fun c => c ≠ slash)).reverse

def openBrace : Char := '\x7b'
def openBracket : Char := '['
def closeBracket : Char := ']'

/-- Part `\{(.*?)\}` of the image patterns at the current position: lazy
group up to the first closing brace, `.` not matching a newline. Returns
the group and the consumed length including both braces. -/
def braceGroup (s : List Char) : Option (List Char × Nat) :=
  match s with
  | c :: rest =>
    if c = openBrace then
      let g := rest.takeWhile (fun x => x ≠ closeBrace && x ≠ '\n')
      match rest.drop g.length with
      | d :: _ => if d = closeBrace then some (g, g.length + 2) else none
      | [] => none
    else none
  | [] => none

/-- Backtracking search for `.*?\]` (after an opening bracket already
consumed) followed by a successful `\{(.*?)\}`: closing-bracket candidates
are tried from the nearest outwards, a newline can never be crossed.
Returns the characters consumed through the chosen bracket, then the brace
group and its consumed length. -/
def bracketThenBrace : List Char → Option (Nat × List Char × Nat)
  | [] => none
  | c :: rest =>
    if c = '\n' then none
    else if c = closeBracket then
      match braceGroup rest with
      | some (g, glen) => some (1, g, glen)
      | none => (bracketThenBrace rest).map (fun r => (r.1 + 1, r.2.1, r.2.2))
    else (bracketThenBrace rest).map (fun r => (r.1 + 1, r.2.1, r.2.2))

def litIncludegraphics : List Char := "\\includegraphics".data
def litGraphicspath : List Char := "\\graphicspath".data
def litFigure : List Char := "\\figure".data

/-- Matcher for `\\includegraphics(?:\[.*?\])?\{(.*?)\}`. When the next
character is an opening bracket the optional group must participate (the
empty alternative would leave `\{` facing `[`), otherwise the brace part
follows directly. -/
def matchIncludegraphics : Matcher := fun s =>
  if litIncludegraphics.isPrefixOf s then
    let after := s.drop litIncludegraphics.length
    match after with
    | c :: rest =>
      if c = openBracket then
        (bracketThenBrace rest).map (fun r =>
          (r.2.1, litIncludegraphics.length + 1 + r.1 + r.2.2))
      else
        (braceGroup after).map (fun r => (r.1, litIncludegraphics.length + r.2))
    | [] => none
  else none

/-- Matcher for a literal followed by `\{(.*?)\}` (the graphics-path and
figure patterns). -/
def matchBraceAfter (lit : List Char) : Matcher := fun s =>
  if lit.isPrefixOf s then
    (braceGroup (s.drop lit.length)).map (fun r => (r.1, lit.length + r.2))
  else none

/-- Matches iterated by `_copy_images`: the three image patterns, pattern
by pattern, each in file order, always over the original content. Each
entry is (full match text, capture group). -/
def imageMatches (content : List Char) : List (List Char × List Char) :=
  ((scanM matchIncludegraphics content 0) ++
   (scanM (matchBraceAfter litGraphicspath) content 0) ++
   (scanM (matchBraceAfter litFigure) content 0)).map
    (fun t => ((content.drop t.1).take t.2.2, t.2.1))

def strImages : List Char := "images".data

/-- Replacement command written for an existing image file. -/
def newIncludeCmd (relPath : List Char) : List Char :=
  "\\includegraphics[width=\\textwidth]\x7b".data ++ relPath ++ [closeBrace]

/-- Model of `LatexParser._copy_images`. `fs` is the filesystem existence
predicate, `srcDir` the directory of the loaded source file, `outDir` the
output directory. Returns the rewritten content together with the
performed (source, destination) file copies, in order. -/
def copy_images (fs : List Char → Bool) (srcDir outDir content : List Char) :
    List Char × List (List Char × List Char) :=
  (imageMatches content).foldl
    (fun acc m =>
      let g0 := m.1
      let img := m.2
      if img.isEmpty then acc
      else
        let original := if isabs img then img else pjoin srcDir img
        if fs original then
          let fname := basename original
          let newPath := pjoin (pjoin outDir strImages) fname
          let relPath := pjoin strImages fname
          if containsSub litIncludegraphics g0 then
            (replaceAll g0 (newIncludeCmd relPath) acc.1,
             acc.2 ++ [(original, newPath)])
          else
            (replaceAll img relPath acc.1, acc.2 ++ [(original, newPath)])
        else acc)
    (content, [])

def pkgGraphicx : List Char := "\\usepackage\x7bgraphicx\x7d".data
def pkgGraphicxFinal : List Char := "\\usepackage[final]\x7bgraphicx\x7d".data

/-- Model of `LatexParser.generate_custom_tex`. Returns the text written
to the output file, or `none` when the source text has no begin-document
marker (the source returns `False` there, before creating or writing any
file).

The source also recomputes its local `preamble` variable with two `re.sub`
calls (draft graphicx option, draft document-class option), but only after
the original `preamble` string object has already been appended to
`new_content`, and the recomputed value is never appended or otherwise
used; the written file therefore contains the original preamble text, and
the two substitutions are dead stores with no counterpart in the output
below. -/
def generate_custom_tex (fs : List Char → Bool) (srcDir outDir : List Char)
    (full : List Char) (components : List Component)
    (selected_ids : List (List Char)) : Option (List Char) :=
  match findSub beginDocument full with
  | none => none
  | some db =>
    let preamble := rstrip (full.take db)
    let first := if containsSub pkgGraphicx preamble
      then [preamble] else [preamble, pkgGraphicxFinal]
    let bodies := (components.filter
        (fun c => decide (c.id ∈ selected_ids) && !c.is_preamble)).map
      (fun c => '\n' :: (copy_images fs srcDir outDir (strip c.content)).1)
    some (List.intercalate ['\n']
      (first ++ [beginDocument] ++ bodies ++ ['\n' :: endDocument ++ ['\n']]))

def litLatexError : List Char := "! LaTeX Error: ".data
def litPackage : List Char := "! Package ".data
def litErrorColon : List Char := " Error: ".data
def litMissing : List Char := "! Missing ".data
def litNoFile : List Char := "No file ".data
def litUndefined : List Char := "! Undefined control sequence".data
def litEmergency : List Char := "! Emergency stop".data
def tagLatexError : List Char := "LaTeX Error".data
def tagPackageError : List Char := "Package Error".data
def tagMissingElement : List Char := "Missing Element".data
def tagMissingFile : List Char := "Missing File".data

/-- Matcher for `lit(.*?)\n`: the literal, a lazy group that cannot cross
a newline, then the newline. -/
def matchLitLine (lit : List Char) : Matcher := fun s =>
  if lit.isPrefixOf s then
    let after := s.drop lit.length
    let g := after.takeWhile (fun c => c ≠ '\n')
    if (after.drop g.length).isEmpty then none
    else some (g, lit.length + g.length + 1)
  else none

/-- Lazy scan used by the package-error pattern: index of the first
occurrence of `stop` that is not preceded by any newline. -/
def findStopNoNl (stop : List Char) : List Char → Option Nat
  | [] => none
  | c :: rest =>
    if stop.isPrefixOf (c :: rest) then some 0
    else if c = '\n' then none
    else (findStopNoNl stop rest).map (· + 1)

/-- Matcher for `! Package (.*?) Error: (.*?)\n`; the first group (the
package name) is the one the source interpolates into the entry. When the
tail after a candidate ` Error: ` has no newline, every later candidate
fails as well (its tail is a suffix), so no backtracking case is lost. -/
def matchPackageError : Matcher := fun s =>
  if litPackage.isPrefixOf s then
    let after := s.drop litPackage.length
    match findStopNoNl litErrorColon after with
    | some j =>
      let g1 := after.take j
      let after2 := after.drop (j + litErrorColon.length)
      let g2 := after2.takeWhile (fun c => c ≠ '\n')
      if (after2.drop g2.length).isEmpty then none
      else some (g1, litPackage.length + j + litErrorColon.length +
        g2.length + 1)
    | none => none
  else none

/-- Error entries contributed by one log pattern, in file order. -/
def entriesOf (m : Matcher) (tag : List Char) (log : List Char) :
    List (List Char) :=
  (scanM m log 0).map (fun t => tag ++ ':' :: ' ' :: t.2.1)

def noSuchGroup : List Char := "no such group".data

/-- Model of `CompilationThread._check_log_for_errors`. The six patterns
are scanned pattern by pattern (all matches of the first, then all of the
second, and so on), each in file order. The last two patterns carry no
capture group, so their first match makes `match.group(1)` raise
`IndexError('no such group')`, aborting classification; the entries
already collected are discarded with the local variable. -/
def check_log_for_errors (log : List Char) :
    Except (List Char) (List (List Char)) :=
  if containsSub litUndefined log || containsSub litEmergency log then
    Except.error noSuchGroup
  else
    Except.ok
      (entriesOf (matchLitLine litLatexError) tagLatexError log ++
       entriesOf matchPackageError tagPackageError log ++
       entriesOf (matchLitLine litMissing) tagMissingElement log ++
       entriesOf (matchLitLine litNoFile) tagMissingFile log)

def msgNoPdf : List Char := "PDF file was not generated successfully".data

/-- Artifact check after the third pass: `os.path.exists(pdf_file) and
os.path.getsize(pdf_file) > 0`. The artifact is `none` when the file does
not exist and `some size` otherwise; `pdfPath` is the path string returned
on success. -/
def artifactCheck (pdfPath : List Char) (pdf : Option Nat) :
    Bool × List Char :=
  match pdf with
  | some size => if 0 < size then (true, pdfPath) else (false, msgNoPdf)
  | none => (false, msgNoPdf)

/-- Model of `CompilationThread._compile_latex`, abstracted over the
external world: `log` is the pass-1 log file content (`none` when the file
is missing, in which case no scan happens), `pdf` the artifact state after
pass 3. The logs written by passes 2 and 3 are never read back; an
exception from the log scan is caught by the enclosing handler, which
returns `False` with the exception text. -/
def compile_latex (log : Option (List Char)) (pdfPath : List Char)
    (pdf : Option Nat) : Bool × List Char :=
  match log with
  | some lc =>
    match check_log_for_errors lc with
    | Except.error e => (false, e)
    | Except.ok errors =>
      if errors.isEmpty then artifactCheck pdfPath pdf
      else (false, List.intercalate ['\n'] errors)
  | none => artifactCheck pdfPath pdf

def backslash : Char := '\\'

def underscore : Char := '_'

/-- Number of positions of a text at which a heading command with a valid
(non-empty, brace-terminated) title starts: the formal reading of the
number of section, subsection, … headings of a text. -/
def countHeads (hd : List Char) : List Char → Nat
  | [] => 0
  | c :: rest =>
    (if (matchHead hd (c :: rest)).isSome then 1 else 0) + countHeads hd rest

/-- Well-formedness side condition on a text: no heading title contains a
backslash. A backslash inside a title can make one heading start inside
another heading's title, which the pattern then swallows. -/
def cleanTitles (hd : List Char) : List Char → Bool
  | [] => true
  | c :: rest =>
    (match matchHead hd (c :: rest) with
     | some (t, _) => decide (backslash ∉ t)
     | none => true) && cleanTitles hd rest

/-- Text of a component after its own heading command: everything past the
first closing brace (the one terminating the title). -/
def bodyAfterHeading (content : List Char) : List Char :=
  (content.dropWhile (fun c => c ≠ closeBrace)).drop 1

/-- Identifier string built from the component type, an underscore, and
the decimal sequence number. -/
def mkId (t : List Char) (n : Nat) : List Char := t ++ '_' :: natRepr n

/-- Document-class block of `extract_components`. -/
def dclsComps (full : List Char) : List Component :=
  componentsOf typeDocumentClass headDocumentclass [[]] true
    (full.take (docBegin full)) 0

/-- Section block of `extract_components`. -/
def secComps (full : List Char) : List Component :=
  componentsOf typeSection headSection [headSection] false
    (documentContent full) (docBegin full)

/-- Subsection block of `extract_components`. -/
def subComps (full : List Char) : List Component :=
  componentsOf typeSubsection headSubsection [headSection, headSubsection]
    false (documentContent full) (docBegin full)

/-- Subsubsection block of `extract_components`. -/
def subsubComps (full : List Char) : List Component :=
  componentsOf typeSubsubsection headSubsubsection
    [headSection, headSubsection, headSubsubsection] false
    (documentContent full) (docBegin full)

/-- Source document whose preamble declares the graphics package in draft
mode. -/
def fullDraft : List Char :=
  ("\\documentclass\x7barticle\x7d\n\\usepackage[draft]\x7bgraphicx\x7d\n" ++
   "\\begin\x7bdocument\x7d\nHello\n\\end\x7bdocument\x7d\n").data

def draftGraphicx : List Char := "\\usepackage[draft]\x7bgraphicx\x7d".data

/-- Log whose Missing-Element match precedes its LaTeX-Error match in the
file. -/
def logInverted : List Char := "! Missing $ inserted\n! LaTeX Error: Foo\n".data

def logFileNotFound : List Char := "! LaTeX Error: File not found\n".data

def entryFileNotFound : List Char := "LaTeX Error: File not found".data

def entryFoo : List Char := "LaTeX Error: Foo".data

def entryInserted : List Char := "Missing Element: $ inserted".data

/-- Source with no begin-document marker, an end-document marker, and a
section heading after the end-document marker. -/
def fullNoBegin : List Char :=
  "\\documentclass\x7ba\x7d\\end\x7bdocument\x7d\\section\x7bX\x7d x\n".data

/-- Component body with a graphics-path entry naming an existing file and
an image inclusion naming a missing file. -/
def contentTrample : List Char :=
  "\\graphicspath\x7bg\x7d \\includegraphics\x7bg.png\x7d".data

def refTrample : List Char := "\\includegraphics\x7bg.png\x7d".data

/-- Filesystem on which only `/src/g` exists. -/
def fsTrample (p : List Char) : Bool := decide (p = "/src/g".data)

def dirSrc : List Char := "/src".data

def dirOut : List Char := "/out".data

/-- Small document used to instantiate universally quantified theorems. -/
def fullSmall : List Char :=
  ("\\documentclass\x7bart\x7d\\begin\x7bdocument\x7d\\section\x7bA\x7d x" ++
   "\\section\x7bB\x7d y\\end\x7bdocument\x7d").data

/-- Body with a single image inclusion whose file exists. -/
def contentSingle : List Char :=
  "pre \\includegraphics[width=2cm]\x7bfig.png\x7d post".data

/-- Filesystem on which only `/src/fig.png` exists. -/
def fsSingle (p : List Char) : Bool := decide (p = "/src/fig.png".data)

theorem isPrefixOf_nil {p : List Char} : p.isPrefixOf ([] : List Char) = p.isEmpty := by
  cases p <;> rfl

theorem isPrefixOf_eq_true_iff {p l : List Char} :
    p.isPrefixOf l = true ↔ ∃ t, p ++ t = l :=
  List.isPrefixOf_iff_prefix

theorem head?_eq_of_isPrefixOf {p l : List Char} (hne : p ≠ [])
    (h : p.isPrefixOf l = true) : l.head? = p.head? := by
  obtain ⟨r, rfl⟩ := isPrefixOf_eq_true_iff.mp h
  cases p with
  | nil => exact absurd rfl hne
  | cons a as => rfl

theorem findSub_isSome_iff (needle : List Char) :
    ∀ hay : List Char,
      (findSub needle hay).isSome = true ↔
        ∃ i, needle.isPrefixOf (hay.drop i) = true
  | [] => by
    simp only [findSub, List.drop_nil]
    constructor
    · intro h
      split at h
      · next hne =>
        refine ⟨0, ?_⟩
        rw [isPrefixOf_nil, hne]
      · simp at h
    · rintro ⟨i, hi⟩
      rw [isPrefixOf_nil] at hi
      simp [hi]
  | c :: rest => by
    simp only [findSub]
    split
    · next h0 =>
      simp only [Option.isSome_some, true_iff]
      exact ⟨0, by simpa using h0⟩
    · next h0 =>
      have hmap : (Option.map (fun x => x + 1) (findSub needle rest)).isSome
          = (findSub needle rest).isSome := by
        cases findSub needle rest <;> rfl
      rw [hmap, findSub_isSome_iff needle rest]
      constructor
      · rintro ⟨j, hj⟩
        exact ⟨j + 1, by simpa [List.drop_succ_cons] using hj⟩
      · rintro ⟨i, hi⟩
        cases i with
        | zero => exact absurd (by simpa using hi) h0
        | succ j => exact ⟨j, by simpa [List.drop_succ_cons] using hi⟩

theorem containsSub_iff (needle hay : List Char) :
    containsSub needle hay = true ↔ ∃ i, needle.isPrefixOf (hay.drop i) = true :=
  findSub_isSome_iff needle hay

theorem findSub_eq_some {needle hay : List Char} {i : Nat}
    (h : findSub needle hay = some i) : needle.isPrefixOf (hay.drop i) = true := by
  induction hay generalizing i with
  | nil =>
    simp only [findSub] at h
    split at h
    · next hne =>
      cases h
      simpa [isPrefixOf_nil] using hne
    · cases h
  | cons c rest ih =>
    simp only [findSub] at h
    split at h
    · next h0 => cases h; simpa using h0
    · next h0 =>
      cases hr : findSub needle rest with
      | none => rw [hr] at h; cases h
      | some j =>
        rw [hr] at h
        cases h
        simpa [List.drop_succ_cons] using ih hr

theorem containsSub_of_isPrefixOf {needle hay : List Char}
    (h : needle.isPrefixOf hay = true) : containsSub needle hay = true :=
  (containsSub_iff needle hay).mpr ⟨0, by simpa using h⟩

theorem takeBody_take (stops : List (List Char)) :
    ∀ u : List Char, takeBody stops u = u.take (takeBody stops u).length
  | [] => rfl
  | c :: rest => by
    simp only [takeBody]
    split
    · rfl
    · simp only [List.length_cons, List.take_succ_cons, List.cons.injEq, true_and]
      exact takeBody_take stops rest

theorem takeBody_length_le (stops : List (List Char)) :
    ∀ u : List Char, (takeBody stops u).length ≤ u.length
  | [] => Nat.le_refl _
  | c :: rest => by
    simp only [takeBody]
    split
    · simp
    · simpa using takeBody_length_le stops rest

theorem takeBody_no_stop (stops : List (List Char)) :
    ∀ (u : List Char) (i : Nat), i < (takeBody stops u).length →
      ∀ st ∈ stops, st.isPrefixOf (u.drop i) = false
  | [], i, h => by simp [takeBody] at h
  | c :: rest, i, h => by
    intro st hst
    simp only [takeBody] at h
    split at h
    · simp at h
    · next hany =>
      have hall := List.any_eq_false.mp (Bool.of_not_eq_true hany)
      cases i with
      | zero =>
        simpa using Bool.eq_false_iff.mpr (hall st hst)
      | succ j =>
        rw [List.drop_succ_cons]
        refine takeBody_no_stop stops rest j ?_ st hst
        simp only [List.length_cons] at h
        omega

theorem takeBody_empty_stop : ∀ u : List Char, takeBody [([] : List Char)] u = []
  | [] => rfl
  | c :: rest => by
    simp [takeBody, List.isPrefixOf]

theorem matchHead_nil (hd : List Char) : matchHead hd [] = none := by
  cases hd <;> simp [matchHead, List.isPrefixOf]

theorem takeWhile_decomp {p : Char → Bool} {r T ds : List Char} {d : Char}
    (hT : r.takeWhile p = T) (hdw : r.dropWhile p = d :: ds) :
    r = T ++ d :: ds := by
  conv_lhs => rw [← List.takeWhile_append_dropWhile p r, hT, hdw]

theorem matchHead_eq_some {hd s t : List Char} {hlen : Nat}
    (h : matchHead hd s = some (t, hlen)) :
    hlen = hd.length + t.length + 1 ∧ t ≠ [] ∧
      (∀ ch ∈ t, ch ≠ closeBrace) ∧
      s = hd ++ t ++ closeBrace :: s.drop hlen := by
  simp only [matchHead] at h
  split at h
  · next hpre =>
    obtain ⟨r, rfl⟩ := isPrefixOf_eq_true_iff.mp hpre
    rw [List.drop_left] at h
    split at h
    · cases h
    · split at h
      · cases h
      · next hte hde =>
        rw [Option.some.injEq, Prod.mk.injEq] at h
        obtain ⟨ht, hl⟩ := h
        rw [ht] at hl hte
        cases hdw : r.dropWhile (fun c => c ≠ closeBrace) with
        | nil => rw [hdw] at hde; simp at hde
        | cons d ds =>
          have hd_eq : d = closeBrace := by
            have h2 := List.head?_dropWhile_not
              (fun c => decide (c ≠ closeBrace)) r
            rw [hdw] at h2
            simpa using h2
          subst hd_eq
          have hr : r = t ++ closeBrace :: ds := takeWhile_decomp ht hdw
          subst hr
          subst hl
          refine ⟨by omega, by simpa [List.isEmpty_iff] using hte, ?_, ?_⟩
          · intro ch hch
            rw [← ht] at hch
            simpa using List.mem_takeWhile_imp hch
          · rw [show hd ++ (t ++ closeBrace :: ds)
                = (hd ++ t ++ [closeBrace]) ++ ds from by simp,
              show hd.length + t.length + 1
                = (hd ++ t ++ [closeBrace]).length from by
                  simp only [List.length_append, List.length_cons,
                    List.length_nil],
              List.drop_left]
            simp
  · cases h

theorem matchHead_isSome_bound {hd s : List Char} {t : List Char} {hlen : Nat}
    (h : matchHead hd s = some (t, hlen)) : 1 ≤ hlen ∧ hlen ≤ s.length := by
  obtain ⟨h1, -, -, h4⟩ := matchHead_eq_some h
  constructor
  · omega
  · conv_rhs => rw [h4]
    simp only [List.length_append, List.length_cons]
    omega

theorem matchComp_eq_some_iff {hd : List Char} {stops : List (List Char)}
    {s g : List Char} {len : Nat} :
    matchComp hd stops s = some (g, len) ↔
      ∃ hlen, matchHead hd s = some (g, hlen) ∧
        len = hlen + (takeBody stops (s.drop hlen)).length := by
  unfold matchComp
  cases h : matchHead hd s with
  | none => simp
  | some p =>
    obtain ⟨t, hlen⟩ := p
    constructor
    · intro he
      rw [Option.some.injEq, Prod.mk.injEq] at he
      obtain ⟨rfl, he2⟩ := he
      exact ⟨hlen, rfl, he2.symm⟩
    · rintro ⟨hlen2, h2, rfl⟩
      rw [Option.some.injEq, Prod.mk.injEq] at h2
      obtain ⟨rfl, rfl⟩ := h2
      rfl

theorem matchComp_eq_none_iff {hd : List Char} {stops : List (List Char)}
    {s : List Char} :
    matchComp hd stops s = none ↔ matchHead hd s = none := by
  unfold matchComp
  cases h : matchHead hd s with
  | none => simp
  | some p => cases p; simp

theorem matchComp_bound {hd : List Char} {stops : List (List Char)}
    {s g : List Char} {len : Nat}
    (h : matchComp hd stops s = some (g, len)) : 1 ≤ len ∧ len ≤ s.length := by
  obtain ⟨hlen, hm, rfl⟩ := matchComp_eq_some_iff.mp h
  obtain ⟨hb1, hb2⟩ := matchHead_isSome_bound hm
  have := takeBody_length_le stops (s.drop hlen)
  simp only [List.length_drop] at this
  omega

theorem matchHead_isSome_isPrefixOf {hd x : List Char}
    (h : (matchHead hd x).isSome = true) : hd.isPrefixOf x = true := by
  by_cases hp : hd.isPrefixOf x = true
  · exact hp
  · rw [matchHead, if_neg hp] at h; cases h

theorem matchHead_none_of_not_isPrefixOf {hd x : List Char}
    (h : hd.isPrefixOf x = false) : matchHead hd x = none := by
  rw [matchHead, if_neg]
  rw [h]
  simp

theorem scanMF_fuel {m : Matcher} :
    ∀ (fuel1 fuel2 : Nat) (s : List Char) (pos : Nat),
      s.length ≤ fuel1 → s.length ≤ fuel2 →
      scanMF m fuel1 s pos = scanMF m fuel2 s pos := by
  intro fuel1
  induction fuel1 with
  | zero =>
    intro fuel2 s pos h1 _
    rw [List.length_eq_zero.mp (Nat.le_zero.mp h1)]
    cases fuel2 <;> rfl
  | succ f1 ih =>
    intro fuel2 s pos h1 h2
    cases s with
    | nil => cases fuel2 <;> rfl
    | cons c rest =>
      cases fuel2 with
      | zero => simp at h2
      | succ f2 =>
        cases hmc : m (c :: rest) with
        | some gl =>
          obtain ⟨g, len⟩ := gl
          simp only [scanMF, hmc]
          congr 1
          refine ih f2 (rest.drop (len - 1)) (pos + len) ?_ ?_
          all_goals
            simp only [List.length_drop]
            simp only [List.length_cons] at h1 h2
            omega
        | none =>
          simp only [scanMF, hmc]
          refine ih f2 rest (pos + 1) ?_ ?_
          all_goals
            simp only [List.length_cons] at h1 h2
            omega

theorem scanM_nil (m : Matcher) (pos : Nat) : scanM m [] pos = [] := rfl

theorem scanM_cons_some {m : Matcher} {c : Char} {rest g : List Char}
    {len pos : Nat} (hmc : m (c :: rest) = some (g, len)) :
    scanM m (c :: rest) pos
      = (pos, g, len) :: scanM m (rest.drop (len - 1)) (pos + len) := by
  show scanMF m (rest.length + 1) (c :: rest) pos = _
  simp only [scanMF, hmc]
  congr 1
  exact scanMF_fuel rest.length (rest.drop (len - 1)).length
    (rest.drop (len - 1)) (pos + len)
    (by simp only [List.length_drop]; omega) (Nat.le_refl _)

theorem scanM_cons_none {m : Matcher} {c : Char} {rest : List Char}
    {pos : Nat} (hmc : m (c :: rest) = none) :
    scanM m (c :: rest) pos = scanM m rest (pos + 1) := by
  show scanMF m (rest.length + 1) (c :: rest) pos = _
  simp only [scanMF, hmc]
  exact scanMF_fuel rest.length rest.length rest (pos + 1)
    (Nat.le_refl _) (Nat.le_refl _)

theorem scanM_sound_aux {m : Matcher}
    (hm : ∀ s g len, m s = some (g, len) → 1 ≤ len) :
    ∀ (n : Nat) (s : List Char), s.length ≤ n →
      ∀ (pos : Nat) (q : Nat × List Char × Nat), q ∈ scanM m s pos →
        pos ≤ q.1 ∧ m (s.drop (q.1 - pos)) = some (q.2.1, q.2.2) := by
  intro n
  induction n with
  | zero =>
    intro s hs pos q hq
    rw [List.length_eq_zero.mp (Nat.le_zero.mp hs)] at hq
    rw [scanM_nil] at hq
    cases hq
  | succ n ih =>
    intro s hs pos q hq
    cases s with
    | nil => rw [scanM_nil] at hq; cases hq
    | cons c rest =>
      cases hmc : m (c :: rest) with
      | some gl =>
        obtain ⟨g, len⟩ := gl
        rw [scanM_cons_some hmc] at hq
        rcases List.mem_cons.mp hq with h1 | h2
        · subst h1
          exact ⟨Nat.le_refl _, by simpa using hmc⟩
        · have hb : (rest.drop (len - 1)).length ≤ n := by
            simp only [List.length_drop]
            simp only [List.length_cons] at hs
            omega
          have hrec := ih (rest.drop (len - 1)) hb (pos + len) q h2
          have hlen1 : 1 ≤ len := hm _ _ _ hmc
          refine ⟨by omega, ?_⟩
          have harith : q.1 - pos = ((len - 1) + (q.1 - (pos + len))) + 1 := by
            have := hrec.1
            omega
          rw [harith, List.drop_succ_cons, ← List.drop_drop]
          exact hrec.2
      | none =>
        rw [scanM_cons_none hmc] at hq
        have hb : rest.length ≤ n := by
          simp only [List.length_cons] at hs
          omega
        have hrec := ih rest hb (pos + 1) q hq
        refine ⟨by omega, ?_⟩
        have harith : q.1 - pos = (q.1 - (pos + 1)) + 1 := by
          have := hrec.1
          omega
        rw [harith, List.drop_succ_cons]
        exact hrec.2

theorem scanM_sound {m : Matcher}
    (hm : ∀ s g len, m s = some (g, len) → 1 ≤ len)
    (s : List Char) (pos : Nat) (q : Nat × List Char × Nat)
    (hq : q ∈ scanM m s pos) :
    pos ≤ q.1 ∧ m (s.drop (q.1 - pos)) = some (q.2.1, q.2.2) :=
  scanM_sound_aux hm s.length s (Nat.le_refl _) pos q hq

theorem scanM_pos_lt_aux {m : Matcher}
    (hm : ∀ s g len, m s = some (g, len) → 1 ≤ len) :
    ∀ (n : Nat) (s : List Char), s.length ≤ n → ∀ (pos : Nat),
      List.Pairwise (fun a b : Nat × List Char × Nat => a.1 < b.1)
        (scanM m s pos) := by
  intro n
  induction n with
  | zero =>
    intro s hs pos
    rw [List.length_eq_zero.mp (Nat.le_zero.mp hs), scanM_nil]
    exact List.Pairwise.nil
  | succ n ih =>
    intro s hs pos
    cases s with
    | nil => rw [scanM_nil]; exact List.Pairwise.nil
    | cons c rest =>
      cases hmc : m (c :: rest) with
      | some gl =>
        obtain ⟨g, len⟩ := gl
        rw [scanM_cons_some hmc]
        have hb : (rest.drop (len - 1)).length ≤ n := by
          simp only [List.length_drop]
          simp only [List.length_cons] at hs
          omega
        refine List.Pairwise.cons ?_ (ih (rest.drop (len - 1)) hb (pos + len))
        intro q hq
        have hlen1 : 1 ≤ len := hm _ _ _ hmc
        have hge := (scanM_sound hm (rest.drop (len - 1)) (pos + len) q hq).1
        show pos < q.1
        omega
      | none =>
        rw [scanM_cons_none hmc]
        have hb : rest.length ≤ n := by
          simp only [List.length_cons] at hs
          omega
        exact ih rest hb (pos + 1)

theorem scanM_pos_lt {m : Matcher}
    (hm : ∀ s g len, m s = some (g, len) → 1 ≤ len)
    (s : List Char) (pos : Nat) :
    List.Pairwise (fun a b : Nat × List Char × Nat => a.1 < b.1)
      (scanM m s pos) :=
  scanM_pos_lt_aux hm s.length s (Nat.le_refl _) pos

theorem cleanTitles_tail {hd : List Char} {c : Char} {rest : List Char}
    (h : cleanTitles hd (c :: rest) = true) : cleanTitles hd rest = true := by
  rw [cleanTitles] at h
  simp only [Bool.and_eq_true] at h
  exact h.2

theorem cleanTitles_head {hd : List Char} {c : Char} {rest t : List Char}
    {hlen : Nat} (h : cleanTitles hd (c :: rest) = true)
    (hm : matchHead hd (c :: rest) = some (t, hlen)) : backslash ∉ t := by
  rw [cleanTitles] at h
  simp only [Bool.and_eq_true] at h
  have h1 := h.1
  rw [hm] at h1
  exact of_decide_eq_true h1

theorem cleanTitles_drop {hd : List Char} :
    ∀ (n : Nat) (s : List Char), cleanTitles hd s = true →
      cleanTitles hd (s.drop n) = true
  | 0, _, h => h
  | _ + 1, [], h => h
  | n + 1, c :: rest, h => by
    rw [List.drop_succ_cons]
    exact cleanTitles_drop n rest (cleanTitles_tail h)

theorem countHeads_drop_of_none {hd : List Char} :
    ∀ (n : Nat) (s : List Char), 1 ≤ n →
      (∀ q, 1 ≤ q → q < n → (matchHead hd (s.drop q)).isSome = false) →
      countHeads hd s
        = (if (matchHead hd s).isSome then 1 else 0) + countHeads hd (s.drop n)
  | 1, [], _, _ => by
    simp [countHeads, matchHead_nil]
  | 1, c :: rest, _, _ => by
    rw [List.drop_one]
    rfl
  | n + 2, s, _, hq => by
    rw [countHeads_drop_of_none (n + 1) s (by omega)
      (fun q hq1 hq2 => hq q hq1 (by omega))]
    congr 1
    have hdd : s.drop (n + 2) = (s.drop (n + 1)).drop 1 := by
      rw [List.drop_drop]
    rw [hdd]
    cases hds : s.drop (n + 1) with
    | nil => rfl
    | cons c rest =>
      have hnone : (matchHead hd (c :: rest)).isSome = false := by
        rw [← hds]
        exact hq (n + 1) (by omega) (by omega)
      simp only [countHeads, hnone, List.drop_one, List.tail_cons,
        Bool.false_eq_true, if_false, Nat.zero_add]

theorem matchHead_none_inside {hd g : List Char} {stops : List (List Char)}
    {len : Nat}
    (hhd0 : hd.head? = some backslash)
    (hhd1 : backslash ∉ hd.drop 1)
    (hstop : ∀ (u : List Char) (i : Nat), i < (takeBody stops u).length →
      hd.isPrefixOf (u.drop i) = false)
    {s : List Char}
    (hm : matchComp hd stops s = some (g, len))
    (hclean : backslash ∉ g) :
    ∀ q, 1 ≤ q → q < len → (matchHead hd (s.drop q)).isSome = false := by
  obtain ⟨hlen, hmh, rfl⟩ := matchComp_eq_some_iff.mp hm
  obtain ⟨hl, hgne, hgch, hs⟩ := matchHead_eq_some hmh
  intro q hq1 hq2
  by_cases hq3 : q < hlen
  · apply Bool.eq_false_iff.mpr
    intro hsome
    have hpre := matchHead_isSome_isPrefixOf hsome
    have hdne : hd ≠ [] := by
      intro he; rw [he] at hhd0; cases hhd0
    have hh := head?_eq_of_isPrefixOf hdne hpre
    rw [hhd0, List.head?_drop] at hh
    conv at hh => lhs; rw [hs]
    rw [List.getElem?_append] at hh
    split at hh
    · rw [List.getElem?_append] at hh
      split at hh
      · next hqa =>
        refine hhd1 ?_
        have h9 : (hd.drop 1)[q - 1]? = some backslash := by
          rw [List.getElem?_drop, show 1 + (q - 1) = q from by omega]
          exact hh
        exact List.getElem?_mem h9
      · exact hclean (List.getElem?_mem hh)
    · next hqa =>
      simp only [List.length_append] at hqa
      have hz : q - (hd ++ g).length = 0 := by
        simp only [List.length_append]
        omega
      rw [hz] at hh
      simp only [List.getElem?_cons_zero, Option.some.injEq] at hh
      exact absurd hh (by decide)
  · have h4 : s.drop q = (s.drop hlen).drop (q - hlen) := by
      rw [List.drop_drop]
      congr 1
      omega
    rw [h4, matchHead_none_of_not_isPrefixOf
      (hstop (s.drop hlen) (q - hlen) (by omega))]
    rfl

theorem scanM_length_eq_countHeads_aux {hd : List Char}
    {stops : List (List Char)}
    (hhd0 : hd.head? = some backslash)
    (hhd1 : backslash ∉ hd.drop 1)
    (hstop : ∀ (u : List Char) (i : Nat), i < (takeBody stops u).length →
      hd.isPrefixOf (u.drop i) = false) :
    ∀ (n : Nat) (s : List Char), s.length ≤ n → ∀ (pos : Nat),
      cleanTitles hd s = true →
      (scanM (matchComp hd stops) s pos).length = countHeads hd s := by
  intro n
  induction n with
  | zero =>
    intro s hs pos _
    rw [List.length_eq_zero.mp (Nat.le_zero.mp hs), scanM_nil]
    rfl
  | succ n ih =>
    intro s hs pos hclean
    cases s with
    | nil => rw [scanM_nil]; rfl
    | cons c rest =>
      cases hmc : matchComp hd stops (c :: rest) with
      | some gl =>
        obtain ⟨g, len⟩ := gl
        rw [scanM_cons_some hmc]
        obtain ⟨hlen1, hlen2⟩ := matchComp_bound hmc
        obtain ⟨hlen, hmh, hlene⟩ := matchComp_eq_some_iff.mp hmc
        have hcg : backslash ∉ g := cleanTitles_head hclean hmh
        have hskip := matchHead_none_inside hhd0 hhd1 hstop hmc hcg
        rw [countHeads_drop_of_none len (c :: rest) hlen1 hskip]
        have hbit : (matchHead hd (c :: rest)).isSome = true := by
          rw [hmh]; rfl
        rw [if_pos hbit]
        have hdropeq : (c :: rest).drop len = rest.drop (len - 1) := by
          cases len with
          | zero => omega
          | succ k => rw [List.drop_succ_cons]; congr 1
        rw [List.length_cons, ← hdropeq]
        have hb : ((c :: rest).drop len).length ≤ n := by
          simp only [List.length_drop, List.length_cons]
          simp only [List.length_cons] at hs
          omega
        rw [ih ((c :: rest).drop len) hb (pos + len)
          (cleanTitles_drop len (c :: rest) hclean)]
        omega
      | none =>
        rw [scanM_cons_none hmc]
        have hnone : matchHead hd (c :: rest) = none :=
          matchComp_eq_none_iff.mp hmc
        rw [countHeads, hnone]
        simp only [Option.isSome_none, Bool.false_eq_true, if_false,
          Nat.zero_add]
        have hb : rest.length ≤ n := by
          simp only [List.length_cons] at hs
          omega
        exact ih rest hb (pos + 1) (cleanTitles_tail hclean)

theorem scanM_length_eq_countHeads {hd : List Char} {stops : List (List Char)}
    (hhd0 : hd.head? = some backslash)
    (hhd1 : backslash ∉ hd.drop 1)
    (hstop : ∀ (u : List Char) (i : Nat), i < (takeBody stops u).length →
      hd.isPrefixOf (u.drop i) = false)
    (s : List Char) (pos : Nat) (hclean : cleanTitles hd s = true) :
    (scanM (matchComp hd stops) s pos).length = countHeads hd s :=
  scanM_length_eq_countHeads_aux hhd0 hhd1 hstop s.length s (Nat.le_refl _)
    pos hclean

theorem insertByStart_perm (c : Component) :
    ∀ l : List Component, (insertByStart c l).Perm (c :: l)
  | [] => List.Perm.refl _
  | d :: l => by
    rw [insertByStart]
    split
    · exact List.Perm.refl _
    · exact ((insertByStart_perm c l).cons d).trans (List.Perm.swap c d l)

theorem sortByStart_perm : ∀ l : List Component, (sortByStart l).Perm l
  | [] => List.Perm.refl _
  | c :: l =>
    (insertByStart_perm c (sortByStart l)).trans ((sortByStart_perm l).cons c)

theorem insertByStart_sorted {c : Component} :
    ∀ {l : List Component},
      List.Pairwise (fun a b : Component => a.start ≤ b.start) l →
      List.Pairwise (fun a b : Component => a.start ≤ b.start)
        (insertByStart c l)
  | [], _ => List.Pairwise.cons (by simp) List.Pairwise.nil
  | d :: l, h => by
    rw [insertByStart]
    split
    · next hle =>
      refine List.Pairwise.cons ?_ h
      intro b hb
      rcases List.mem_cons.mp hb with rfl | hb2
      · exact hle
      · exact Nat.le_trans hle (List.rel_of_pairwise_cons h hb2)
    · next hle =>
      obtain ⟨hd1, hd2⟩ := List.pairwise_cons.mp h
      refine List.pairwise_cons.mpr ⟨?_, insertByStart_sorted hd2⟩
      intro b hb
      have hb3 : b ∈ c :: l := (insertByStart_perm c l).mem_iff.mp hb
      rcases List.mem_cons.mp hb3 with rfl | hb2
      · omega
      · exact hd1 b hb2

theorem sortByStart_sorted : ∀ l : List Component,
    List.Pairwise (fun a b : Component => a.start ≤ b.start) (sortByStart l)
  | [] => List.Pairwise.nil
  | _ :: l => insertByStart_sorted (sortByStart_sorted l)

theorem perm_sorted_eq : ∀ (l r : List Component), l.Perm r →
    List.Pairwise (fun a b : Component => a.start ≤ b.start) l →
    List.Pairwise (fun a b : Component => a.start < b.start) r → l = r := by
  intro l
  induction l with
  | nil =>
    intro r hp _ _
    exact List.Perm.nil_eq hp
  | cons a l' ih =>
    intro r hp hl hr
    cases r with
    | nil => simpa using hp.length_eq
    | cons b r' =>
      have hab : a = b := by
        by_contra hne
        have ha : a ∈ b :: r' := hp.mem_iff.mp (List.mem_cons_self a l')
        have hb : b ∈ a :: l' := hp.mem_iff.mpr (List.mem_cons_self b r')
        rcases List.mem_cons.mp ha with h1 | h2
        · exact hne h1
        · rcases List.mem_cons.mp hb with h3 | h4
          · exact hne h3.symm
          · have h5 : b.start < a.start := List.rel_of_pairwise_cons hr h2
            have h6 : a.start ≤ b.start := List.rel_of_pairwise_cons hl h4
            omega
      subst hab
      rw [ih r' hp.cons_inv (List.pairwise_cons.mp hl).2
        (List.pairwise_cons.mp hr).2]

theorem componentsOf_mem {ctype hd : List Char} {stops : List (List Char)}
    {is_pre : Bool} {search : List Char} {offset : Nat} {c : Component}
    (hc : c ∈ componentsOf ctype hd stops is_pre search offset) :
    c.type = ctype ∧ c.is_preamble = is_pre ∧
      (∃ q : Nat × List Char × Nat,
        q ∈ scanM (matchComp hd stops) search 0 ∧
        c.content = (search.drop q.1).take q.2.2 ∧ c.start = q.1 + offset) ∧
      ∃ i, c.id = ctype ++ '_' :: natRepr (i + 1) := by
  unfold componentsOf at hc
  obtain ⟨p, hp, rfl⟩ := List.mem_map.mp hc
  have hsnd : p.2 ∈ scanM (matchComp hd stops) search 0 := by
    have h1 := List.mem_map_of_mem Prod.snd hp
    rwa [List.enum_map_snd] at h1
  exact ⟨rfl, rfl, ⟨p.2, hsnd, rfl, rfl⟩, p.1, rfl⟩

theorem componentsOf_map_id (ctype hd : List Char) (stops : List (List Char))
    (is_pre : Bool) (search : List Char) (offset : Nat) :
    (componentsOf ctype hd stops is_pre search offset).map (fun c => c.id)
      = (List.range (scanM (matchComp hd stops) search 0).length).map
          (fun i => ctype ++ '_' :: natRepr (i + 1)) := by
  unfold componentsOf
  rw [List.map_map]
  have h1 : ((scanM (matchComp hd stops) search 0).enum).map
      ((fun c : Component => c.id) ∘
        (fun p => mkComponent ctype is_pre offset search p.1 p.2))
      = ((scanM (matchComp hd stops) search 0).enum).map
          ((fun i => ctype ++ '_' :: natRepr (i + 1)) ∘ Prod.fst) :=
    List.map_congr_left (fun p _ => rfl)
  rw [h1, ← List.map_map, List.enum_map_fst]

theorem componentsOf_length (ctype hd : List Char) (stops : List (List Char))
    (is_pre : Bool) (search : List Char) (offset : Nat) :
    (componentsOf ctype hd stops is_pre search offset).length
      = (scanM (matchComp hd stops) search 0).length := by
  unfold componentsOf
  rw [List.length_map, List.enum_length]

theorem componentsOf_start_lt (ctype hd : List Char) (stops : List (List Char))
    (is_pre : Bool) (search : List Char) (offset : Nat)
    (hm : ∀ s g len, matchComp hd stops s = some (g, len) → 1 ≤ len) :
    List.Pairwise (fun a b : Component => a.start < b.start)
      (componentsOf ctype hd stops is_pre search offset) := by
  unfold componentsOf
  rw [List.pairwise_map]
  have h0 := scanM_pos_lt hm search 0
  rw [← List.enum_map_snd (scanM (matchComp hd stops) search 0),
    List.pairwise_map] at h0
  refine h0.imp ?_
  intro p q h
  simpa [mkComponent] using Nat.add_lt_add_right h offset

theorem digitChar_toNat {k : Nat} (h : k < 10) :
    (Nat.digitChar k).toNat - 48 = k := by
  interval_cases k <;> rfl

theorem foldl_digits_natReprF :
    ∀ (fuel n acc : Nat), n < fuel →
      (natReprF fuel n).foldl (fun a c => a * 10 + (c.toNat - 48)) acc
        = acc * 10 ^ (natReprF fuel n).length + n := by
  intro fuel
  induction fuel with
  | zero => intro n acc h; omega
  | succ f ih =>
    intro n acc h
    by_cases h10 : n < 10
    · simp only [natReprF, if_pos h10]
      simp only [List.foldl_cons, List.foldl_nil, List.length_cons,
        List.length_nil]
      rw [digitChar_toNat h10]
      ring
    · simp only [natReprF, if_neg h10]
      rw [List.foldl_append]
      have hdiv : n / 10 < f := by
        have hlt : n / 10 < n := Nat.div_lt_self (by omega) (by omega)
        omega
      rw [ih (n / 10) acc hdiv]
      simp only [List.foldl_cons, List.foldl_nil, List.length_append,
        List.length_cons, List.length_nil]
      rw [digitChar_toNat (Nat.mod_lt _ (by omega))]
      rw [pow_succ]
      have hmod : n / 10 * 10 + n % 10 = n := by
        have := Nat.div_add_mod n 10
        omega
      calc (acc * 10 ^ (natReprF f (n / 10)).length + n / 10) * 10 + n % 10
          = acc * (10 ^ (natReprF f (n / 10)).length * 10)
            + (n / 10 * 10 + n % 10) := by ring
        _ = acc * (10 ^ (natReprF f (n / 10)).length * 10) + n := by rw [hmod]

theorem foldl_digits_natRepr (n acc : Nat) :
    (natRepr n).foldl (fun a c => a * 10 + (c.toNat - 48)) acc
      = acc * 10 ^ (natRepr n).length + n :=
  foldl_digits_natReprF (n + 1) n acc (Nat.lt_succ_self n)

theorem natRepr_inj {a b : Nat} (h : natRepr a = natRepr b) : a = b := by
  have ha := foldl_digits_natRepr a 0
  have hb := foldl_digits_natRepr b 0
  rw [h] at ha
  rw [ha] at hb
  omega

theorem takeWhile_ne_underscore {t d : List Char} (ht : '_' ∉ t) :
    (t ++ '_' :: d).takeWhile (fun c => c ≠ '_') = t := by
  rw [List.takeWhile_append_of_pos (by
    intro a ha
    simp only [decide_eq_true_eq]
    intro he
    exact ht (he ▸ ha))]
  rw [List.takeWhile_cons_of_neg (by simp)]
  simp

theorem id_shape_inj {t1 t2 d1 d2 : List Char}
    (h1 : '_' ∉ t1) (h2 : '_' ∉ t2)
    (he : t1 ++ '_' :: d1 = t2 ++ '_' :: d2) : t1 = t2 ∧ d1 = d2 := by
  have ht : t1 = t2 := by
    have hc := congrArg (List.takeWhile (fun c => c ≠ '_')) he
    rwa [takeWhile_ne_underscore h1, takeWhile_ne_underscore h2] at hc
  subst ht
  refine ⟨rfl, ?_⟩
  have h3 := List.append_cancel_left he
  injection h3

theorem mkId_inj {t1 t2 : List Char} {m n : Nat}
    (h1 : '_' ∉ t1) (h2 : '_' ∉ t2)
    (he : t1 ++ '_' :: natRepr m = t2 ++ '_' :: natRepr n) :
    t1 = t2 ∧ m = n := by
  obtain ⟨ha, hb⟩ := id_shape_inj h1 h2 he
  exact ⟨ha, natRepr_inj hb⟩

theorem matchComp_len_pos (hd : List Char) (stops : List (List Char)) :
    ∀ s g len, matchComp hd stops s = some (g, len) → 1 ≤ len :=
  fun _ _ _ h => (matchComp_bound h).1

theorem hstop_of_mem {hd : List Char} {stops : List (List Char)}
    (hmem : hd ∈ stops) :
    ∀ (u : List Char) (i : Nat), i < (takeBody stops u).length →
      hd.isPrefixOf (u.drop i) = false :=
  fun u i hi => takeBody_no_stop stops u i hi hd hmem

theorem hstop_empty (hd : List Char) :
    ∀ (u : List Char) (i : Nat), i < (takeBody [[]] u).length →
      hd.isPrefixOf (u.drop i) = false := by
  intro u i hi
  rw [takeBody_empty_stop] at hi
  exact absurd hi (Nat.not_lt_zero i)

theorem extract_components_eq (full : List Char) :
    extract_components full = sortByStart
      (dclsComps full ++ secComps full ++ subComps full ++ subsubComps full)
  := rfl

theorem extract_filter_perm (full : List Char) (p : Component → Bool) :
    ((extract_components full).filter p).Perm
      ((dclsComps full).filter p ++ (secComps full).filter p ++
       (subComps full).filter p ++ (subsubComps full).filter p) := by
  rw [extract_components_eq]
  have h := (sortByStart_perm (dclsComps full ++ secComps full ++
    subComps full ++ subsubComps full)).filter p
  simpa [List.filter_append] using h

theorem componentsOf_filter_type (ctype hd : List Char)
    (stops : List (List Char)) (is_pre : Bool) (search : List Char)
    (offset : Nat) (t : List Char) :
    (componentsOf ctype hd stops is_pre search offset).filter
      (fun c => decide (c.type = t))
      = if ctype = t then componentsOf ctype hd stops is_pre search offset
        else [] := by
  by_cases h : ctype = t
  · rw [if_pos h]
    apply List.filter_eq_self.mpr
    intro a ha
    rw [(componentsOf_mem ha).1, h]
    simp
  · rw [if_neg h]
    apply List.filter_eq_nil_iff.mpr
    intro a ha
    rw [(componentsOf_mem ha).1]
    simp [h]

theorem componentsOf_filter_nonpre (ctype hd : List Char)
    (stops : List (List Char)) (is_pre : Bool) (search : List Char)
    (offset : Nat) :
    (componentsOf ctype hd stops is_pre search offset).filter
      (fun c => !c.is_preamble)
      = if is_pre then []
        else componentsOf ctype hd stops is_pre search offset := by
  by_cases h : is_pre
  · rw [if_pos h]
    apply List.filter_eq_nil_iff.mpr
    intro a ha
    rw [(componentsOf_mem ha).2.1, h]
    simp
  · rw [if_neg h]
    apply List.filter_eq_self.mpr
    intro a ha
    rw [(componentsOf_mem ha).2.1]
    simp [h]

theorem secComps_length (full : List Char)
    (h : cleanTitles headSection (documentContent full) = true) :
    (secComps full).length = countHeads headSection (documentContent full)
  := by
  unfold secComps
  rw [componentsOf_length]
  exact scanM_length_eq_countHeads (by decide) (by decide)
    (hstop_of_mem (by simp)) _ 0 h

theorem subComps_length (full : List Char)
    (h : cleanTitles headSubsection (documentContent full) = true) :
    (subComps full).length
      = countHeads headSubsection (documentContent full) := by
  unfold subComps
  rw [componentsOf_length]
  exact scanM_length_eq_countHeads (by decide) (by decide)
    (hstop_of_mem (by simp)) _ 0 h

theorem subsubComps_length (full : List Char)
    (h : cleanTitles headSubsubsection (documentContent full) = true) :
    (subsubComps full).length
      = countHeads headSubsubsection (documentContent full) := by
  unfold subsubComps
  rw [componentsOf_length]
  exact scanM_length_eq_countHeads (by decide) (by decide)
    (hstop_of_mem (by simp)) _ 0 h

theorem dclsComps_length (full : List Char)
    (h : cleanTitles headDocumentclass (full.take (docBegin full)) = true) :
    (dclsComps full).length
      = countHeads headDocumentclass (full.take (docBegin full)) := by
  unfold dclsComps
  rw [componentsOf_length]
  exact scanM_length_eq_countHeads (by decide) (by decide)
    (hstop_empty _) _ 0 h

/-- C1 (code bug): for a source whose preamble declares the graphics
package with a draft option, the assembled document still contains the
draft-mode declaration verbatim — the source's draft-to-final `re.sub`
rebinds a local variable only after the original preamble string was
already appended to the output list — and additionally carries an appended
final-mode declaration, contradicting the claim that no draft-mode token
remains. -/
theorem claim_C1_draft_retained :
    (generate_custom_tex (fun _ => false) dirSrc dirOut fullDraft
        (extract_components fullDraft) []).map
      (fun out => (containsSub draftGraphicx out,
        containsSub pkgGraphicxFinal out))
      = some (true, true) := by decide

/-- C3: for a well-formed document — no heading title contains a backslash
and the preamble declares at most one document class — extraction returns
exactly one non-preamble component per sectioning heading of the body
(N + M + K in total), at most one DocumentClass component, and the list is
sorted by start offset. -/
theorem claim_C3_extract_counts (full : List Char)
    (h1 : cleanTitles headSection (documentContent full) = true)
    (h2 : cleanTitles headSubsection (documentContent full) = true)
    (h3 : cleanTitles headSubsubsection (documentContent full) = true)
    (h4 : cleanTitles headDocumentclass (full.take (docBegin full)) = true)
    (h5 : countHeads headDocumentclass (full.take (docBegin full)) ≤ 1) :
    ((extract_components full).filter (fun c => !c.is_preamble)).length
      = countHeads headSection (documentContent full)
        + countHeads headSubsection (documentContent full)
        + countHeads headSubsubsection (documentContent full)
    ∧ ((extract_components full).filter
        (fun c => decide (c.type = typeDocumentClass))).length ≤ 1
    ∧ List.Pairwise (fun a b : Component => a.start ≤ b.start)
        (extract_components full) := by
  refine ⟨?_, ?_, by rw [extract_components_eq]; exact sortByStart_sorted _⟩
  · rw [(extract_filter_perm full (fun c => !c.is_preamble)).length_eq]
    have g1 : (dclsComps full).filter (fun c => !c.is_preamble) = [] := by
      unfold dclsComps
      rw [componentsOf_filter_nonpre]
      simp
    have g2 : (secComps full).filter (fun c => !c.is_preamble)
        = secComps full := by
      unfold secComps
      rw [componentsOf_filter_nonpre]
      simp
    have g3 : (subComps full).filter (fun c => !c.is_preamble)
        = subComps full := by
      unfold subComps
      rw [componentsOf_filter_nonpre]
      simp
    have g4 : (subsubComps full).filter (fun c => !c.is_preamble)
        = subsubComps full := by
      unfold subsubComps
      rw [componentsOf_filter_nonpre]
      simp
    rw [g1, g2, g3, g4]
    simp only [List.length_append, List.length_nil]
    rw [secComps_length full h1, subComps_length full h2,
      subsubComps_length full h3]
    omega
  · rw [(extract_filter_perm full
      (fun c => decide (c.type = typeDocumentClass))).length_eq]
    have f1 : (dclsComps full).filter
        (fun c => decide (c.type = typeDocumentClass)) = dclsComps full := by
      unfold dclsComps
      rw [componentsOf_filter_type, if_pos rfl]
    have f2 : (secComps full).filter
        (fun c => decide (c.type = typeDocumentClass)) = [] := by
      unfold secComps
      rw [componentsOf_filter_type, if_neg (by decide)]
    have f3 : (subComps full).filter
        (fun c => decide (c.type = typeDocumentClass)) = [] := by
      unfold subComps
      rw [componentsOf_filter_type, if_neg (by decide)]
    have f4 : (subsubComps full).filter
        (fun c => decide (c.type = typeDocumentClass)) = [] := by
      unfold subsubComps
      rw [componentsOf_filter_type, if_neg (by decide)]
    rw [f1, f2, f3, f4]
    simp only [List.length_append, List.length_nil]
    rw [dclsComps_length full h4]
    omega

/-- C3 witness: the sample document has two sections, no subsections and
one document class; extraction yields exactly two non-preamble components
and at most one DocumentClass component. -/
theorem claim_C3_witness :
    ((extract_components fullSmall).filter
      (fun c => !c.is_preamble)).length = 2
    ∧ ((extract_components fullSmall).filter
        (fun c => decide (c.type = typeDocumentClass))).length ≤ 1 := by
  have h := claim_C3_extract_counts fullSmall (by decide) (by decide)
    (by decide) (by decide) (by decide)
  refine ⟨?_, h.2.1⟩
  rw [h.1]
  decide

/-- C6: when the source text has no begin-document marker,
`generate_custom_tex` fails immediately; the model returns `none` (the
value otherwise carrying the text to write), mirroring the source's
`return False` placed before any directory creation or file write. -/
theorem claim_C6_no_begin_fails (fs : List Char → Bool)
    (srcDir outDir full : List Char) (components : List Component)
    (selected_ids : List (List Char))
    (h : findSub beginDocument full = none) :
    generate_custom_tex fs srcDir outDir full components selected_ids
      = none := by
  unfold generate_custom_tex
  rw [h]

/-- C6 witness: a concrete source without the begin-document marker. -/
theorem claim_C6_witness :
    findSub beginDocument "hello".data = none
    ∧ generate_custom_tex (fun _ => false) dirSrc dirOut "hello".data []
        [] = none :=
  ⟨by decide, claim_C6_no_begin_fails (fun _ => false) dirSrc dirOut
    "hello".data [] [] (by decide)⟩

/-- C8: once the first pass has not failed (its log file is missing or
classifies no errors), the run is reported successful exactly when the PDF
artifact exists with non-zero size; an artifact of size zero or a missing
artifact gives failure. The model reads no log after pass one, so the
passes 2-3 logs cannot influence the result. -/
theorem claim_C8_artifact_check (log : Option (List Char))
    (pdfPath : List Char) (pdf : Option Nat)
    (hpass1 : log = none ∨ ∃ lc, log = some lc ∧
      check_log_for_errors lc = Except.ok []) :
    ((compile_latex log pdfPath pdf).1 = true ↔
      ∃ sz, pdf = some sz ∧ 0 < sz)
    ∧ (compile_latex log pdfPath (some 0)).1 = false
    ∧ (compile_latex log pdfPath none).1 = false := by
  have hred : ∀ p, compile_latex log pdfPath p = artifactCheck pdfPath p := by
    intro p
    rcases hpass1 with rfl | ⟨lc, rfl, hok⟩
    · rfl
    · simp only [compile_latex]
      rw [hok]
      simp
  rw [hred, hred, hred]
  refine ⟨?_, by rfl, by rfl⟩
  cases pdf with
  | none => simp [artifactCheck]
  | some sz =>
    simp only [artifactCheck]
    by_cases h : 0 < sz
    · rw [if_pos h]
      simp only [true_iff]
      exact ⟨sz, rfl, h⟩
    · rw [if_neg h]
      constructor
      · intro hx
        cases hx
      · rintro ⟨x, hx, hx2⟩
        cases hx
        exact absurd hx2 h

/-- C8 witness: with no pass-1 log, a 5-byte artifact succeeds and a
0-byte artifact fails. -/
theorem claim_C8_witness :
    (compile_latex none "x".data (some 5)).1 = true
    ∧ (compile_latex none "x".data (some 0)).1 = false :=
  ⟨((claim_C8_artifact_check none "x".data (some 5) (Or.inl rfl)).1).mpr
      ⟨5, rfl, by decide⟩,
    (claim_C8_artifact_check none "x".data (some 0) (Or.inl rfl)).2.1⟩

/-- C10 counterexample: a source with no begin-document marker, an
end-document marker, and a section heading after that marker. The claim
asserts the sectioning patterns still run over the whole file, which would
produce a Section component for the heading (the whole file has exactly
one matchable section heading), yet extraction produces no components at
all — the sectioning range stops at the end-document marker. -/
theorem claim_C10_counterexample :
    findSub beginDocument fullNoBegin = none
    ∧ countHeads headSection fullNoBegin = 1
    ∧ extract_components fullNoBegin = [] := by decide

/-- C10 amended: with no begin-document marker the preamble search range
is empty, so extraction never produces a DocumentClass component even when
the text declares a document class; the three sectioning patterns are
matched against the file prefix ending at the end-document marker — the
whole file only when that marker is also absent, in which case every clean
section heading of the file yields one Section component. -/
theorem claim_C10_amended (full : List Char)
    (hb : findSub beginDocument full = none) :
    (∀ c ∈ extract_components full,
      c.is_preamble = false ∧ c.type ≠ typeDocumentClass)
    ∧ documentContent full = full.take (docEnd full)
    ∧ (findSub endDocument full = none →
        cleanTitles headSection full = true →
        ((extract_components full).filter
          (fun c => decide (c.type = typeSection))).length
          = countHeads headSection full) := by
  have hdb : docBegin full = 0 := by
    unfold docBegin
    rw [hb]
    rfl
  have hdcls : dclsComps full = [] := by
    unfold dclsComps
    rw [hdb]
    rfl
  refine ⟨?_, ?_, ?_⟩
  · intro c hc
    rw [extract_components_eq] at hc
    have hc2 := (sortByStart_perm _).mem_iff.mp hc
    rw [hdcls] at hc2
    simp only [List.nil_append, List.mem_append] at hc2
    rcases hc2 with (h | h) | h
    · obtain ⟨ht, hp, -⟩ := componentsOf_mem h
      exact ⟨hp, by rw [ht]; decide⟩
    · obtain ⟨ht, hp, -⟩ := componentsOf_mem h
      exact ⟨hp, by rw [ht]; decide⟩
    · obtain ⟨ht, hp, -⟩ := componentsOf_mem h
      exact ⟨hp, by rw [ht]; decide⟩
  · unfold documentContent
    rw [hdb]
    simp
  · intro he hclean
    have hdc : documentContent full = full := by
      unfold documentContent docEnd
      rw [hdb, he]
      simp
    rw [(extract_filter_perm full
      (fun c => decide (c.type = typeSection))).length_eq]
    have f1 : (dclsComps full).filter
        (fun c => decide (c.type = typeSection)) = [] := by
      rw [hdcls]
      rfl
    have f2 : (secComps full).filter
        (fun c => decide (c.type = typeSection)) = secComps full := by
      unfold secComps
      rw [componentsOf_filter_type, if_pos rfl]
    have f3 : (subComps full).filter
        (fun c => decide (c.type = typeSection)) = [] := by
      unfold subComps
      rw [componentsOf_filter_type, if_neg (by decide)]
    have f4 : (subsubComps full).filter
        (fun c => decide (c.type = typeSection)) = [] := by
      unfold subsubComps
      rw [componentsOf_filter_type, if_neg (by decide)]
    rw [f1, f2, f3, f4]
    simp only [List.length_append, List.length_nil]
    rw [secComps_length full (by rw [hdc]; exact hclean), hdc]
    omega

/-- C10 amended witness: a source consisting of a single section heading
and no markers at all; the heading is extracted from the whole file and no
DocumentClass component exists. -/
theorem claim_C10_witness :
    ((extract_components "\\section\x7bZ\x7d w".data).filter
      (fun c => decide (c.type = typeSection))).length
      = countHeads headSection "\\section\x7bZ\x7d w".data := by
  have h := claim_C10_amended "\\section\x7bZ\x7d w".data (by decide)
  exact h.2.2 (by decide) (by decide)

theorem mem_block_ids {ctype hd : List Char} {stops : List (List Char)}
    {is_pre : Bool} {search : List Char} {offset : Nat} {x : List Char}
    (hx : x ∈ (componentsOf ctype hd stops is_pre search offset).map
      (fun c => c.id)) : ∃ n, x = mkId ctype n := by
  rw [componentsOf_map_id] at hx
  obtain ⟨i, -, rfl⟩ := List.mem_map.mp hx
  exact ⟨i + 1, rfl⟩

theorem mkId_ne {t1 t2 : List Char} {m n : Nat} (h1 : '_' ∉ t1)
    (h2 : '_' ∉ t2) (hne : t1 ≠ t2) : mkId t1 m ≠ mkId t2 n := by
  intro he
  exact hne (mkId_inj h1 h2 he).1

theorem block_ids_nodup {ctype hd : List Char} {stops : List (List Char)}
    {is_pre : Bool} {search : List Char} {offset : Nat}
    (h : '_' ∉ ctype) :
    ((componentsOf ctype hd stops is_pre search offset).map
      (fun c => c.id)).Nodup := by
  rw [componentsOf_map_id]
  refine List.Nodup.map ?_ (List.nodup_range _)
  intro a b hab
  have h2 := (mkId_inj h h hab).2
  omega

theorem block_ids_disjoint {ct1 ct2 hd1 hd2 : List Char}
    {st1 st2 : List (List Char)} {b1 b2 : Bool} {se1 se2 : List Char}
    {o1 o2 : Nat} (h1 : '_' ∉ ct1) (h2 : '_' ∉ ct2) (hne : ct1 ≠ ct2) :
    ((componentsOf ct1 hd1 st1 b1 se1 o1).map (fun c => c.id)).Disjoint
      ((componentsOf ct2 hd2 st2 b2 se2 o2).map (fun c => c.id)) := by
  intro x hx1 hx2
  obtain ⟨m, rfl⟩ := mem_block_ids hx1
  obtain ⟨n, he⟩ := mem_block_ids hx2
  exact mkId_ne h1 h2 hne he

theorem extract_filter_dcls (full : List Char) :
    (extract_components full).filter
      (fun c => decide (c.type = typeDocumentClass)) = dclsComps full := by
  refine perm_sorted_eq _ _ ?_ ?_ ?_
  · have h0 := extract_filter_perm full
      (fun c => decide (c.type = typeDocumentClass))
    have f1 : (dclsComps full).filter
        (fun c => decide (c.type = typeDocumentClass)) = dclsComps full := by
      unfold dclsComps; rw [componentsOf_filter_type, if_pos rfl]
    have f2 : (secComps full).filter
        (fun c => decide (c.type = typeDocumentClass)) = [] := by
      unfold secComps; rw [componentsOf_filter_type, if_neg (by decide)]
    have f3 : (subComps full).filter
        (fun c => decide (c.type = typeDocumentClass)) = [] := by
      unfold subComps; rw [componentsOf_filter_type, if_neg (by decide)]
    have f4 : (subsubComps full).filter
        (fun c => decide (c.type = typeDocumentClass)) = [] := by
      unfold subsubComps; rw [componentsOf_filter_type, if_neg (by decide)]
    rw [f1, f2, f3, f4] at h0
    simpa using h0
  · rw [extract_components_eq]
    exact (sortByStart_sorted _).filter _
  · unfold dclsComps
    exact componentsOf_start_lt _ _ _ _ _ _ (matchComp_len_pos _ _)

theorem extract_filter_sec (full : List Char) :
    (extract_components full).filter
      (fun c => decide (c.type = typeSection)) = secComps full := by
  refine perm_sorted_eq _ _ ?_ ?_ ?_
  · have h0 := extract_filter_perm full
      (fun c => decide (c.type = typeSection))
    have f1 : (dclsComps full).filter
        (fun c => decide (c.type = typeSection)) = [] := by
      unfold dclsComps; rw [componentsOf_filter_type, if_neg (by decide)]
    have f2 : (secComps full).filter
        (fun c => decide (c.type = typeSection)) = secComps full := by
      unfold secComps; rw [componentsOf_filter_type, if_pos rfl]
    have f3 : (subComps full).filter
        (fun c => decide (c.type = typeSection)) = [] := by
      unfold subComps; rw [componentsOf_filter_type, if_neg (by decide)]
    have f4 : (subsubComps full).filter
        (fun c => decide (c.type = typeSection)) = [] := by
      unfold subsubComps; rw [componentsOf_filter_type, if_neg (by decide)]
    rw [f1, f2, f3, f4] at h0
    simpa using h0
  · rw [extract_components_eq]
    exact (sortByStart_sorted _).filter _
  · unfold secComps
    exact componentsOf_start_lt _ _ _ _ _ _ (matchComp_len_pos _ _)

theorem extract_filter_sub (full : List Char) :
    (extract_components full).filter
      (fun c => decide (c.type = typeSubsection)) = subComps full := by
  refine perm_sorted_eq _ _ ?_ ?_ ?_
  · have h0 := extract_filter_perm full
      (fun c => decide (c.type = typeSubsection))
    have f1 : (dclsComps full).filter
        (fun c => decide (c.type = typeSubsection)) = [] := by
      unfold dclsComps; rw [componentsOf_filter_type, if_neg (by decide)]
    have f2 : (secComps full).filter
        (fun c => decide (c.type = typeSubsection)) = [] := by
      unfold secComps; rw [componentsOf_filter_type, if_neg (by decide)]
    have f3 : (subComps full).filter
        (fun c => decide (c.type = typeSubsection)) = subComps full := by
      unfold subComps; rw [componentsOf_filter_type, if_pos rfl]
    have f4 : (subsubComps full).filter
        (fun c => decide (c.type = typeSubsection)) = [] := by
      unfold subsubComps; rw [componentsOf_filter_type, if_neg (by decide)]
    rw [f1, f2, f3, f4] at h0
    simpa using h0
  · rw [extract_components_eq]
    exact (sortByStart_sorted _).filter _
  · unfold subComps
    exact componentsOf_start_lt _ _ _ _ _ _ (matchComp_len_pos _ _)

theorem extract_filter_subsub (full : List Char) :
    (extract_components full).filter
      (fun c => decide (c.type = typeSubsubsection)) = subsubComps full := by
  refine perm_sorted_eq _ _ ?_ ?_ ?_
  · have h0 := extract_filter_perm full
      (fun c => decide (c.type = typeSubsubsection))
    have f1 : (dclsComps full).filter
        (fun c => decide (c.type = typeSubsubsection)) = [] := by
      unfold dclsComps; rw [componentsOf_filter_type, if_neg (by decide)]
    have f2 : (secComps full).filter
        (fun c => decide (c.type = typeSubsubsection)) = [] := by
      unfold secComps; rw [componentsOf_filter_type, if_neg (by decide)]
    have f3 : (subComps full).filter
        (fun c => decide (c.type = typeSubsubsection)) = [] := by
      unfold subComps; rw [componentsOf_filter_type, if_neg (by decide)]
    have f4 : (subsubComps full).filter
        (fun c => decide (c.type = typeSubsubsection)) = subsubComps full := by
      unfold subsubComps; rw [componentsOf_filter_type, if_pos rfl]
    rw [f1, f2, f3, f4] at h0
    simpa using h0
  · rw [extract_components_eq]
    exact (sortByStart_sorted _).filter _
  · unfold subsubComps
    exact componentsOf_start_lt _ _ _ _ _ _ (matchComp_len_pos _ _)

/-- C9: every identifier has the form kind_n with n at least 1; for each
of the four kinds, the identifiers of that kind in the final list are
exactly kind_1 … kind_cnt in order (per-kind 1-based sequence numbering,
preserved by the stable sort because starts are strictly increasing within
a kind); all identifiers are distinct; and re-running the (pure)
extraction on the same text yields the identical identifier list. -/
theorem claim_C9_identifiers (full : List Char) :
    (∀ c ∈ extract_components full, ∃ n, 1 ≤ n ∧ c.id = mkId c.type n)
    ∧ ((extract_components full).map (fun c => c.id)).Nodup
    ∧ (∀ t ∈ [typeDocumentClass, typeSection, typeSubsection,
        typeSubsubsection],
        ((extract_components full).filter
          (fun c => decide (c.type = t))).map (fun c => c.id)
          = (List.range ((extract_components full).filter
              (fun c => decide (c.type = t))).length).map
              (fun i => mkId t (i + 1)))
    ∧ (extract_components full).map (fun c => c.id)
        = (extract_components full).map (fun c => c.id) := by
  refine ⟨?_, ?_, ?_, rfl⟩
  · intro c hc
    rw [extract_components_eq] at hc
    have hc2 := (sortByStart_perm _).mem_iff.mp hc
    simp only [List.mem_append] at hc2
    rcases hc2 with ((h | h) | h) | h <;>
    · obtain ⟨ht, -, -, i, hid⟩ := componentsOf_mem h
      exact ⟨i + 1, by omega, by rw [hid, ht]; rfl⟩
  · rw [extract_components_eq]
    have hperm := (sortByStart_perm (dclsComps full ++ secComps full ++
      subComps full ++ subsubComps full)).map (fun c => c.id)
    rw [hperm.nodup_iff]
    rw [List.map_append, List.map_append, List.map_append]
    have n1 : ((dclsComps full).map (fun c => c.id)).Nodup := by
      unfold dclsComps; exact block_ids_nodup (by decide)
    have n2 : ((secComps full).map (fun c => c.id)).Nodup := by
      unfold secComps; exact block_ids_nodup (by decide)
    have n3 : ((subComps full).map (fun c => c.id)).Nodup := by
      unfold subComps; exact block_ids_nodup (by decide)
    have n4 : ((subsubComps full).map (fun c => c.id)).Nodup := by
      unfold subsubComps; exact block_ids_nodup (by decide)
    have d12 : ((dclsComps full).map (fun c => c.id)).Disjoint
        ((secComps full).map (fun c => c.id)) := by
      unfold dclsComps secComps
      exact block_ids_disjoint (by decide) (by decide) (by decide)
    have d13 : ((dclsComps full).map (fun c => c.id)).Disjoint
        ((subComps full).map (fun c => c.id)) := by
      unfold dclsComps subComps
      exact block_ids_disjoint (by decide) (by decide) (by decide)
    have d14 : ((dclsComps full).map (fun c => c.id)).Disjoint
        ((subsubComps full).map (fun c => c.id)) := by
      unfold dclsComps subsubComps
      exact block_ids_disjoint (by decide) (by decide) (by decide)
    have d23 : ((secComps full).map (fun c => c.id)).Disjoint
        ((subComps full).map (fun c => c.id)) := by
      unfold secComps subComps
      exact block_ids_disjoint (by decide) (by decide) (by decide)
    have d24 : ((secComps full).map (fun c => c.id)).Disjoint
        ((subsubComps full).map (fun c => c.id)) := by
      unfold secComps subsubComps
      exact block_ids_disjoint (by decide) (by decide) (by decide)
    have d34 : ((subComps full).map (fun c => c.id)).Disjoint
        ((subsubComps full).map (fun c => c.id)) := by
      unfold subComps subsubComps
      exact block_ids_disjoint (by decide) (by decide) (by decide)
    refine List.Nodup.append (List.Nodup.append
      (List.Nodup.append n1 n2 d12) n3 ?_) n4 ?_
    · intro x hx1 hx2
      rcases List.mem_append.mp hx1 with h | h
      · exact d13 h hx2
      · exact d23 h hx2
    · intro x hx1 hx2
      rcases List.mem_append.mp hx1 with h | h
      · rcases List.mem_append.mp h with h2 | h2
        · exact d14 h2 hx2
        · exact d24 h2 hx2
      · exact d34 h hx2
  · intro t ht
    have key : ∀ (ctype hd : List Char) (stops : List (List Char))
        (is_pre : Bool) (search : List Char) (offset : Nat),
        (extract_components full).filter (fun c => decide (c.type = ctype))
          = componentsOf ctype hd stops is_pre search offset →
        ((extract_components full).filter
          (fun c => decide (c.type = ctype))).map (fun c => c.id)
          = (List.range ((extract_components full).filter
              (fun c => decide (c.type = ctype))).length).map
              (fun i => mkId ctype (i + 1)) := by
      intro ctype hd stops is_pre search offset heq
      rw [heq, componentsOf_map_id, componentsOf_length]
      rfl
    simp only [List.mem_cons, List.not_mem_nil, or_false] at ht
    rcases ht with rfl | rfl | rfl | rfl
    · exact key typeDocumentClass headDocumentclass [[]] true
        (full.take (docBegin full)) 0 (extract_filter_dcls full)
    · exact key typeSection headSection [headSection] false
        (documentContent full) (docBegin full) (extract_filter_sec full)
    · exact key typeSubsection headSubsection [headSection, headSubsection]
        false (documentContent full) (docBegin full) (extract_filter_sub full)
    · exact key typeSubsubsection headSubsubsection
        [headSection, headSubsection, headSubsubsection] false
        (documentContent full) (docBegin full) (extract_filter_subsub full)

/-- C9 witness: on the sample document, identifiers are distinct and the
Section identifiers are exactly Section_1, Section_2 in order. -/
theorem claim_C9_witness :
    ((extract_components fullSmall).map (fun c => c.id)).Nodup
    ∧ ((extract_components fullSmall).filter
        (fun c => decide (c.type = typeSection))).map (fun c => c.id)
      = [mkId typeSection 1, mkId typeSection 2] := by
  have h := claim_C9_identifiers fullSmall
  refine ⟨h.2.1, ?_⟩
  rw [h.2.2.1 typeSection (by simp)]
  decide

theorem componentsOf_body_no_stop {ctype hd : List Char}
    {stops : List (List Char)} {is_pre : Bool} {search : List Char}
    {offset : Nat} {c : Component}
    (hc : c ∈ componentsOf ctype hd stops is_pre search offset)
    (hhd : ∀ ch ∈ hd, ch ≠ closeBrace) :
    ∀ st ∈ stops, st ≠ [] →
      containsSub st (bodyAfterHeading c.content) = false := by
  intro st hst hstne
  obtain ⟨-, -, ⟨q, hq, hcontent, -⟩, -⟩ := componentsOf_mem hc
  obtain ⟨pos, g, len⟩ := q
  have hcon : c.content = (search.drop pos).take len := hcontent
  have hsound := scanM_sound (matchComp_len_pos hd stops) search 0
    (pos, g, len) hq
  have hmc : matchComp hd stops (search.drop pos) = some (g, len) := by
    have h2 := hsound.2
    simpa using h2
  obtain ⟨hlen, hmh, hlene⟩ := matchComp_eq_some_iff.mp hmc
  obtain ⟨hl, hgne, hgch, hs⟩ := matchHead_eq_some hmh
  set u := (search.drop pos).drop hlen with hu
  have hA : ((hd ++ g) ++ [closeBrace]).length = hlen := by
    simp only [List.length_append, List.length_cons, List.length_nil]
    omega
  have hsplit : search.drop pos = ((hd ++ g) ++ [closeBrace]) ++ u := by
    rw [hs]
    simp
  have hct : c.content = ((hd ++ g) ++ [closeBrace]) ++ takeBody stops u := by
    rw [hcon, hsplit, hlene, ← hA, List.take_append, ← takeBody_take]
  have hbody : bodyAfterHeading c.content = takeBody stops u := by
    rw [hct]
    unfold bodyAfterHeading
    rw [show ((hd ++ g) ++ [closeBrace]) ++ takeBody stops u
        = (hd ++ g) ++ closeBrace :: takeBody stops u from by simp]
    rw [List.dropWhile_append_of_pos (by
      intro a ha
      rcases List.mem_append.mp ha with h | h
      · simpa using hhd a h
      · simpa using hgch a h)]
    rw [List.dropWhile_cons_of_neg (by simp)]
    rw [List.drop_succ_cons, List.drop_zero]
  rw [hbody]
  apply Bool.eq_false_iff.mpr
  intro hcon2
  obtain ⟨i, hi⟩ := (containsSub_iff st _).mp hcon2
  by_cases hilt : i < (takeBody stops u).length
  · have h1 := isPrefixOf_eq_true_iff.mp hi
    rw [takeBody_take, List.drop_take] at h1
    obtain ⟨t, ht⟩ := h1
    have hx : st ++ (t ++ (u.drop i).drop ((takeBody stops u).length - i))
        = u.drop i := by
      rw [← List.append_assoc, ht, List.take_append_drop]
    have h2 := takeBody_no_stop stops u i hilt st hst
    rw [isPrefixOf_eq_true_iff.mpr ⟨_, hx⟩] at h2
    cases h2
  · rw [List.drop_eq_nil_of_le (by omega)] at hi
    rw [isPrefixOf_nil] at hi
    exact hstne (List.isEmpty_iff.mp hi)

/-- C5: the body of every extracted component — the text after its own
heading command — contains no occurrence of a same-or-higher-level heading
command: a Section body no further section heading, a Subsection body no
section or subsection heading, a Subsubsection body no section,
subsection or subsubsection heading. -/
theorem claim_C5_bodies (full : List Char) (c : Component)
    (hc : c ∈ extract_components full) :
    (c.type = typeSection →
      containsSub headSection (bodyAfterHeading c.content) = false)
    ∧ (c.type = typeSubsection →
      containsSub headSection (bodyAfterHeading c.content) = false
      ∧ containsSub headSubsection (bodyAfterHeading c.content) = false)
    ∧ (c.type = typeSubsubsection →
      containsSub headSection (bodyAfterHeading c.content) = false
      ∧ containsSub headSubsection (bodyAfterHeading c.content) = false
      ∧ containsSub headSubsubsection (bodyAfterHeading c.content)
        = false) := by
  rw [extract_components_eq] at hc
  have hc2 := (sortByStart_perm _).mem_iff.mp hc
  simp only [List.mem_append] at hc2
  rcases hc2 with ((h | h) | h) | h
  · have ht := (componentsOf_mem h).1
    refine ⟨?_, ?_, ?_⟩ <;>
    · intro he
      rw [ht] at he
      exact absurd he (by decide)
  · have ht := (componentsOf_mem h).1
    have hb := componentsOf_body_no_stop h (by decide)
    refine ⟨fun _ => hb headSection (by simp) (by decide), ?_, ?_⟩ <;>
    · intro he
      rw [ht] at he
      exact absurd he (by decide)
  · have ht := (componentsOf_mem h).1
    have hb := componentsOf_body_no_stop h (by decide)
    refine ⟨?_, ?_, ?_⟩
    · intro he
      rw [ht] at he
      exact absurd he (by decide)
    · exact fun _ => ⟨hb headSection (by simp) (by decide),
        hb headSubsection (by simp) (by decide)⟩
    · intro he
      rw [ht] at he
      exact absurd he (by decide)
  · have ht := (componentsOf_mem h).1
    have hb := componentsOf_body_no_stop h (by decide)
    refine ⟨?_, ?_, ?_⟩
    · intro he
      rw [ht] at he
      exact absurd he (by decide)
    · intro he
      rw [ht] at he
      exact absurd he (by decide)
    · exact fun _ => ⟨hb headSection (by simp) (by decide),
        hb headSubsection (by simp) (by decide),
        hb headSubsubsection (by simp) (by decide)⟩

/-- C5 witness: the second component of the sample document is a Section
whose body contains no further section heading. -/
theorem claim_C5_witness :
    ((extract_components fullSmall).getD 1
      ⟨[], [], [], 0, 0, [], false⟩).type = typeSection
    ∧ containsSub headSection (bodyAfterHeading
        ((extract_components fullSmall).getD 1
          ⟨[], [], [], 0, 0, [], false⟩).content) = false := by
  have h := claim_C5_bodies fullSmall
    ((extract_components fullSmall).getD 1 ⟨[], [], [], 0, 0, [], false⟩)
    (by decide)
  exact ⟨by decide, h.1 (by decide)⟩

theorem generate_custom_tex_some {fs : List Char → Bool}
    {srcDir outDir full : List Char} {components : List Component}
    {selected_ids : List (List Char)} {db : Nat}
    (hdb : findSub beginDocument full = some db) :
    generate_custom_tex fs srcDir outDir full components selected_ids
      = some (List.intercalate ['\n']
          ((if containsSub pkgGraphicx (rstrip (full.take db))
            then [rstrip (full.take db)]
            else [rstrip (full.take db), pkgGraphicxFinal])
           ++ [beginDocument]
           ++ (components.filter
                (fun c => decide (c.id ∈ selected_ids)
                  && !c.is_preamble)).map
              (fun c => '\n' ::
                (copy_images fs srcDir outDir (strip c.content)).1)
           ++ ['\n' :: endDocument ++ ['\n']])) := by
  unfold generate_custom_tex
  rw [hdb]

/-- C4: the assembled output depends only on the set of selected
identifiers, never on the caller-supplied order; the selected non-preamble
component bodies appear in the output in start-offset order (the filter of
the start-sorted component list), each body contributed as a
newline-prefixed element of a newline-joined list, hence preceded by a
blank line; and the whole output consists of the preamble block (with its
conditional final-mode graphics declaration), the begin-document marker,
the selected bodies, and the end-document marker. -/
theorem claim_C4_assembly_order (fs : List Char → Bool)
    (srcDir outDir full : List Char) (sel1 sel2 : List (List Char))
    (out : List Char)
    (hset : ∀ x, x ∈ sel1 ↔ x ∈ sel2)
    (h : generate_custom_tex fs srcDir outDir full
      (extract_components full) sel1 = some out) :
    generate_custom_tex fs srcDir outDir full
      (extract_components full) sel2 = some out
    ∧ (∃ db, findSub beginDocument full = some db ∧
        out = List.intercalate ['\n']
          ((if containsSub pkgGraphicx (rstrip (full.take db))
            then [rstrip (full.take db)]
            else [rstrip (full.take db), pkgGraphicxFinal])
           ++ [beginDocument]
           ++ ((extract_components full).filter
                (fun c => decide (c.id ∈ sel1) && !c.is_preamble)).map
              (fun c => '\n' ::
                (copy_images fs srcDir outDir (strip c.content)).1)
           ++ ['\n' :: endDocument ++ ['\n']]))
    ∧ List.Pairwise (fun a b : Component => a.start ≤ b.start)
        ((extract_components full).filter
          (fun c => decide (c.id ∈ sel1) && !c.is_preamble)) := by
  have hfilter : (extract_components full).filter
      (fun c => decide (c.id ∈ sel1) && !c.is_preamble)
      = (extract_components full).filter
        (fun c => decide (c.id ∈ sel2) && !c.is_preamble) :=
    List.filter_congr (fun c _ => by
      rw [decide_eq_decide.mpr (hset c.id)])
  cases hdb : findSub beginDocument full with
  | none =>
    unfold generate_custom_tex at h
    rw [hdb] at h
    cases h
  | some db =>
    rw [generate_custom_tex_some hdb] at h
    refine ⟨?_, ⟨db, rfl, (Option.some.inj h).symm⟩, ?_⟩
    · rw [generate_custom_tex_some hdb, ← hfilter]
      exact h
    · refine List.Pairwise.filter _ ?_
      rw [extract_components_eq]
      exact sortByStart_sorted _

/-- C4 witness: on the sample document, two selections of the same
identifier set in different orders (with a duplicate) produce the same
output text. -/
theorem claim_C4_witness :
    generate_custom_tex (fun _ => false) dirSrc dirOut fullSmall
      (extract_components fullSmall)
      [mkId typeSection 2, mkId typeSection 1]
    = generate_custom_tex (fun _ => false) dirSrc dirOut fullSmall
      (extract_components fullSmall)
      [mkId typeSection 1, mkId typeSection 2, mkId typeSection 2] := by
  have hset : ∀ x : List Char,
      x ∈ [mkId typeSection 2, mkId typeSection 1] ↔
      x ∈ [mkId typeSection 1, mkId typeSection 2, mkId typeSection 2] := by
    intro x
    simp only [List.mem_cons, List.not_mem_nil, or_false]
    constructor
    · rintro (h | h)
      · exact Or.inr (Or.inl h)
      · exact Or.inl h
    · rintro (h | h | h)
      · exact Or.inr h
      · exact Or.inl h
      · exact Or.inl h
  cases hg : generate_custom_tex (fun _ => false) dirSrc dirOut fullSmall
      (extract_components fullSmall)
      [mkId typeSection 2, mkId typeSection 1] with
  | none =>
    rw [generate_custom_tex_some (show findSub beginDocument fullSmall
      = some 19 from by decide)] at hg
    cases hg
  | some out =>
    rw [(claim_C4_assembly_order (fun _ => false) dirSrc dirOut fullSmall
      [mkId typeSection 2, mkId typeSection 1]
      [mkId typeSection 1, mkId typeSection 2, mkId typeSection 2]
      out hset hg).1]

theorem matchLitLine_len_pos (lit : List Char) :
    ∀ s g len, matchLitLine lit s = some (g, len) → 1 ≤ len := by
  intro s g len h
  simp only [matchLitLine] at h
  split at h
  · split at h
    · cases h
    · rw [Option.some.injEq, Prod.mk.injEq] at h
      omega
  · cases h

theorem matchPackageError_len_pos :
    ∀ s g len, matchPackageError s = some (g, len) → 1 ≤ len := by
  intro s g len h
  simp only [matchPackageError] at h
  split at h
  · split at h
    · split at h
      · cases h
      · rw [Option.some.injEq, Prod.mk.injEq] at h
        omega
    · cases h
  · cases h

/-- C2 counterexample: in a log whose Missing-Element line (position 0)
precedes its LaTeX-Error line (position 21), classification reports the
LaTeX-Error entry first — the collected entries are grouped by pattern,
not in overall file order as the claim states. -/
theorem claim_C2_counterexample :
    check_log_for_errors logInverted = Except.ok [entryFoo, entryInserted]
    ∧ findSub litMissing logInverted = some 0
    ∧ findSub litLatexError logInverted = some 21
    ∧ entryFoo ≠ entryInserted := by
  refine ⟨rfl, by decide, by decide, by decide⟩

/-- C2 amended: classification collects one entry per match of the four
group-bearing patterns, grouped by category in the fixed pattern order
(LaTeX Error, Package Error, Missing Element, Missing File) and in file
order within each category (the match positions of one pattern are
strictly increasing); a log matching the Undefined-Command or
Emergency-Stop pattern instead aborts classification with the
`no such group` exception text (those patterns have no capture group for
`match.group(1)`) and the caught exception makes the pass fail; otherwise
the first pass is declared failed exactly when the entry list is
non-empty, with the newline-joined entries as the message, as the
File-not-found example exhibits. -/
theorem claim_C2_amended (lc pdfPath : List Char) (pdf : Option Nat) :
    (check_log_for_errors lc = Except.error noSuchGroup ∨
      check_log_for_errors lc = Except.ok
        (entriesOf (matchLitLine litLatexError) tagLatexError lc ++
         entriesOf matchPackageError tagPackageError lc ++
         entriesOf (matchLitLine litMissing) tagMissingElement lc ++
         entriesOf (matchLitLine litNoFile) tagMissingFile lc))
    ∧ (check_log_for_errors lc = Except.error noSuchGroup ↔
        (containsSub litUndefined lc || containsSub litEmergency lc)
          = true)
    ∧ List.Pairwise (fun a b => a.1 < b.1)
        (scanM (matchLitLine litLatexError) lc 0)
    ∧ List.Pairwise (fun a b => a.1 < b.1) (scanM matchPackageError lc 0)
    ∧ List.Pairwise (fun a b => a.1 < b.1)
        (scanM (matchLitLine litMissing) lc 0)
    ∧ List.Pairwise (fun a b => a.1 < b.1)
        (scanM (matchLitLine litNoFile) lc 0)
    ∧ (∀ e, check_log_for_errors lc = Except.error e →
        (compile_latex (some lc) pdfPath pdf).1 = false)
    ∧ (∀ es, check_log_for_errors lc = Except.ok es → es ≠ [] →
        compile_latex (some lc) pdfPath pdf
          = (false, List.intercalate ['\n'] es))
    ∧ (check_log_for_errors lc = Except.ok [] →
        compile_latex (some lc) pdfPath pdf = artifactCheck pdfPath pdf)
    ∧ compile_latex (some logFileNotFound) pdfPath pdf
        = (false, entryFileNotFound) := by
  refine ⟨?_, ?_, ?_, ?_, ?_, ?_, ?_, ?_, ?_, rfl⟩
  · unfold check_log_for_errors
    split
    · exact Or.inl rfl
    · exact Or.inr rfl
  · unfold check_log_for_errors
    split
    · next hcond => simpa using hcond
    · next hcond =>
      constructor
      · intro he
        cases he
      · intro he
        exact absurd he hcond
  · exact scanM_pos_lt (matchLitLine_len_pos _) lc 0
  · exact scanM_pos_lt matchPackageError_len_pos lc 0
  · exact scanM_pos_lt (matchLitLine_len_pos _) lc 0
  · exact scanM_pos_lt (matchLitLine_len_pos _) lc 0
  · intro e he
    simp only [compile_latex]
    rw [he]
  · intro es he hne
    simp only [compile_latex, he]
    rw [if_neg (by simpa [List.isEmpty_iff] using hne)]
  · intro he
    simp only [compile_latex]
    rw [he]
    simp

/-- C2 amended witness: the File-not-found log makes the run fail with the
single classified entry as its message. -/
theorem claim_C2_witness :
    compile_latex (some logFileNotFound) "p".data (some 1)
      = (false, entryFileNotFound) :=
  (claim_C2_amended logFileNotFound "p".data
    (some 1)).2.2.2.2.2.2.2.2.2

theorem replaceAllF_fuel (old new : List Char) :
    ∀ (f1 f2 : Nat) (s : List Char), s.length ≤ f1 → s.length ≤ f2 →
      replaceAllF old new f1 s = replaceAllF old new f2 s := by
  intro f1
  induction f1 with
  | zero =>
    intro f2 s h1 _
    rw [List.length_eq_zero.mp (Nat.le_zero.mp h1)]
    cases f2 <;> rfl
  | succ f ih =>
    intro f2 s h1 h2
    cases s with
    | nil => cases f2 <;> rfl
    | cons c rest =>
      cases f2 with
      | zero => simp at h2
      | succ f2' =>
        simp only [replaceAllF]
        split
        · congr 1
          refine ih f2' _ ?_ ?_ <;>
          · simp only [List.length_drop]
            simp only [List.length_cons] at h1 h2
            omega
        · congr 1
          refine ih f2' rest ?_ ?_ <;>
          · simp only [List.length_cons] at h1 h2
            omega

theorem replaceAll_cons (old new : List Char) (c : Char) (rest : List Char) :
    replaceAll old new (c :: rest)
      = if !old.isEmpty && old.isPrefixOf (c :: rest) then
          new ++ replaceAll old new (rest.drop (old.length - 1))
        else c :: replaceAll old new rest := by
  show replaceAllF old new (rest.length + 1) (c :: rest) = _
  simp only [replaceAllF]
  split
  · congr 1
    exact replaceAllF_fuel old new rest.length
      (rest.drop (old.length - 1)).length (rest.drop (old.length - 1))
      (by rw [List.length_drop]; exact Nat.sub_le _ _) (Nat.le_refl _)
  · rfl

theorem replaceAll_no_occ (old new : List Char) :
    ∀ s : List Char, (∀ i, old.isPrefixOf (s.drop i) = false) →
      replaceAll old new s = s
  | [], _ => rfl
  | c :: rest, h => by
    rw [replaceAll_cons]
    rw [if_neg (fun hb => by
      simp only [Bool.and_eq_true] at hb
      have h0 := h 0
      rw [List.drop_zero, hb.2] at h0
      cases h0)]
    congr 1
    exact replaceAll_no_occ old new rest (fun i => by
      have h2 := h (i + 1)
      rwa [List.drop_succ_cons] at h2)

theorem occ_bound {old s : List Char} (hne : old ≠ []) {i : Nat}
    (h : old.isPrefixOf (s.drop i) = true) : i < s.length := by
  by_contra hge
  rw [List.drop_eq_nil_of_le (by omega)] at h
  rw [isPrefixOf_nil] at h
  exact hne (List.isEmpty_iff.mp h)

theorem replaceAll_single (old new : List Char) (hne : old ≠ []) :
    ∀ (pre suf : List Char),
      (∀ i, old.isPrefixOf ((pre ++ old ++ suf).drop i) = true →
        i = pre.length) →
      replaceAll old new (pre ++ old ++ suf) = pre ++ new ++ suf := by
  intro pre
  induction pre with
  | nil =>
    intro suf h
    cases old with
    | nil => exact absurd rfl hne
    | cons o otail =>
      simp only [List.nil_append] at h ⊢
      rw [show (o :: otail) ++ suf = o :: (otail ++ suf) from rfl,
        replaceAll_cons]
      have hcond : (!(o :: otail).isEmpty
          && (o :: otail).isPrefixOf (o :: (otail ++ suf))) = true := by
        simp only [List.isEmpty_cons, Bool.not_false, Bool.true_and]
        exact isPrefixOf_eq_true_iff.mpr ⟨suf, rfl⟩
      rw [if_pos hcond]
      congr 1
      have hdrop : (otail ++ suf).drop ((o :: otail).length - 1) = suf := by
        simp only [List.length_cons, Nat.add_sub_cancel]
        exact List.drop_left otail suf
      rw [hdrop]
      refine replaceAll_no_occ _ _ suf (fun j => ?_)
      apply Bool.eq_false_iff.mpr
      intro hp
      have hocc := h ((o :: otail).length + j) (by
        rw [List.drop_append]
        exact hp)
      simp only [List.length_cons, List.length_nil] at hocc
      omega
  | cons a pre' ih =>
    intro suf h
    rw [show (a :: pre') ++ old ++ suf = a :: (pre' ++ old ++ suf) from rfl,
      replaceAll_cons]
    rw [if_neg (fun hb => by
      simp only [Bool.and_eq_true] at hb
      have h0 := h 0 (by
        rw [List.drop_zero]
        rw [show (a :: pre') ++ old ++ suf
          = a :: (pre' ++ old ++ suf) from rfl]
        exact hb.2)
      simp only [List.length_cons] at h0
      omega)]
    rw [show (a :: pre') ++ new ++ suf = a :: (pre' ++ new ++ suf) from rfl]
    congr 1
    refine ih suf (fun i hi => ?_)
    have h2 := h (i + 1) (by
      rw [show (a :: pre') ++ old ++ suf
        = a :: (pre' ++ old ++ suf) from rfl, List.drop_succ_cons]
      exact hi)
    simp only [List.length_cons] at h2
    omega

theorem foldl_id {α β : Type} (f : α → β → α) :
    ∀ (l : List β) (a : α), (∀ b ∈ l, ∀ x, f x b = x) → l.foldl f a = a
  | [], _, _ => rfl
  | b :: l, a, h => by
    rw [List.foldl_cons, h b (List.mem_cons_self ..) a]
    exact foldl_id f l a (fun b2 hb2 x => h b2 (List.mem_cons_of_mem _ hb2) x)

/-- C7 counterexample: a component body with a graphics-path entry `g`
(resolving to an existing file beside the source) and an image-inclusion
reference to the missing file `g.png`. Processing the graphics-path entry
replaces every occurrence of the bare string `g` in the whole body, so the
missing-file image-inclusion reference does not survive unmodified,
contradicting the claim. (Assembly itself still succeeds: the function is
total and returns a rewritten body.) -/
theorem claim_C7_counterexample :
    fsTrample (pjoin dirSrc "g.png".data) = false
    ∧ containsSub refTrample contentTrample = true
    ∧ containsSub refTrample
        (copy_images fsTrample dirSrc dirOut contentTrample).1 = false := by
  refine ⟨by decide, by decide, by decide⟩

/-- C7 amended: if no image reference of a body resolves to an existing
file, the body is returned completely unmodified and no file is copied
(missing files never abort assembly); and when the body's only image
reference across all three patterns is a single image-inclusion command,
occurring exactly once as a substring, whose file exists, that command is
rewritten to the full-width form pointing at `images/<basename>` and the
file is copied into the output image directory. A reference to a missing
file can still be altered by the global textual replacement performed for
a different, existing reference. -/
theorem claim_C7_amended (fs : List Char → Bool)
    (srcDir outDir content : List Char) :
    ((∀ m ∈ imageMatches content, m.2 ≠ [] →
        fs (if isabs m.2 then m.2 else pjoin srcDir m.2) = false) →
      copy_images fs srcDir outDir content = (content, []))
    ∧ (∀ g0 p pre suf,
        imageMatches content = [(g0, p)] →
        p ≠ [] →
        fs (if isabs p then p else pjoin srcDir p) = true →
        containsSub litIncludegraphics g0 = true →
        content = pre ++ g0 ++ suf →
        (∀ i, i < content.length →
          g0.isPrefixOf (content.drop i) = true → i = pre.length) →
        copy_images fs srcDir outDir content
          = (pre ++ newIncludeCmd (pjoin strImages
              (basename (if isabs p then p else pjoin srcDir p))) ++ suf,
             [((if isabs p then p else pjoin srcDir p),
               pjoin (pjoin outDir strImages)
                 (basename (if isabs p then p else pjoin srcDir p)))])) := by
  constructor
  · intro hall
    unfold copy_images
    refine foldl_id _ (imageMatches content) (content, []) ?_
    intro m hm x
    simp only []
    split
    · rfl
    · next hne2 =>
      rw [if_neg (by
        rw [hall m hm (by simpa [List.isEmpty_iff] using hne2)]
        simp)]
  · intro g0 p pre suf hm hpne hfs hg0 hcsplit hocc
    have hg0ne : g0 ≠ [] := by
      intro he
      rw [he] at hg0
      exact absurd hg0 (by decide)
    unfold copy_images
    rw [hm]
    simp only [List.foldl_cons, List.foldl_nil]
    rw [if_neg (by simpa [List.isEmpty_iff] using hpne), if_pos hfs,
      if_pos hg0]
    rw [List.nil_append]
    rw [show content = pre ++ g0 ++ suf from hcsplit]
    rw [replaceAll_single g0 _ hg0ne pre suf (fun i hi => by
      apply hocc i
      · rw [hcsplit]
        exact occ_bound hg0ne hi
      · rw [hcsplit]
        exact hi)]

/-- C7 amended witness: a body consisting of a single image inclusion of
an existing file is rewritten to the full-width form and the file is
copied into the output image directory. -/
theorem claim_C7_witness :
    copy_images fsSingle dirSrc dirOut contentSingle
      = ("pre \\includegraphics[width=\\textwidth]\x7bimages/fig.png\x7d post".data,
         [("/src/fig.png".data, "/out/images/fig.png".data)]) := by
  have h := (claim_C7_amended fsSingle dirSrc dirOut contentSingle).2
    "\\includegraphics[width=2cm]\x7bfig.png\x7d".data "fig.png".data
    "pre ".data " post".data (by decide) (by decide) (by decide) (by decide)
    (by decide) (by decide)
  rw [h]
  decide

end LatexSel
